import Mathlib

/-!
Shallow embedding of the dungen dungeon-generator (Rust) and proofs about it.

Conventions used throughout:
- Rust usize is modelled by Nat.  Where the Rust code subtracts usizes, Nat
  truncated subtraction is used; all subtractions reached by the theorems
  below are non-underflowing, so the model agrees with the code there.
- raylib f32 vectors/rectangles only ever hold small integer values in this
  code base (they are built from usize casts and the constant -1.0), so they
  are modelled exactly by Int respectively Nat fields.
- The random source trait Rng (rng.rs) exposes a single method
  random_range(lo..=hi).  It is modelled by an arbitrary state type sigma
  together with a step function rand : sigma -> Nat -> Nat -> Nat x sigma;
  each call returns the drawn value and the advanced state.
- Rust Vec is modelled by List; Vec::push appends at the right end.
-/

set_option maxRecDepth 8000

namespace Dungen

/-- A random source is in range when each draw from a nonempty inclusive
range lo..=hi lies inside that range (the contract of rng.rs). -/
def InRange {σ : Type} (rand : σ → Nat → Nat → Nat × σ) : Prop :=
  ∀ s lo hi, lo ≤ hi → lo ≤ (rand s lo hi).1 ∧ (rand s lo hi).1 ≤ hi

/-! ### vec.rs: geometry primitives -/

/-- vec.rs Vector2 (i32 coordinates, also standing in for the raylib f32
vector whose values are small integers in this code base). -/
structure V2 where
  x : Int
  y : Int
deriving DecidableEq, Repr

/-- vec.rs vec2. -/
def vec2 (x y : Int) : V2 := ⟨x, y⟩

instance : Add V2 := ⟨fun a b => ⟨a.x + b.x, a.y + b.y⟩⟩

instance : Sub V2 := ⟨fun a b => ⟨a.x - b.x, a.y - b.y⟩⟩

/-- Vector2::mul by a scalar (impl Mul<i32> for Vector2). -/
def V2.scale (v : V2) (k : Int) : V2 := ⟨v.x * k, v.y * k⟩

/-- Vector2::length_sqr. -/
def V2.length_sqr (v : V2) : Int := v.x * v.x + v.y * v.y

/-- vec.rs Rectangle (usize fields; also stands in for the raylib f32
rectangle, whose values are small nonnegative integers here). -/
structure Rect where
  x : Nat
  y : Nat
  width : Nat
  height : Nat
deriving DecidableEq, Repr

/-- Rectangle::check_collision_recs (axis-aligned open-interval overlap;
identical formula in vec.rs and in raylib). -/
def Rect.check_collision_recs (a other : Rect) : Bool :=
  decide (a.x < other.x + other.width) && decide (other.x < a.x + a.width) &&
  decide (a.y < other.y + other.height) && decide (other.y < a.y + a.height)

/-- Rectangle::check_collision_point_rec. -/
def Rect.check_collision_point_rec (r : Rect) (point : V2) : Bool :=
  decide (point.x ≥ (r.x : Int)) && decide (point.x < ((r.x + r.width : Nat) : Int)) &&
  decide (point.y ≥ (r.y : Int)) && decide (point.y < ((r.y + r.height : Nat) : Int))

/-- vec.rs to_index: convert a point to a row-major array index. -/
def to_index (v : V2) (grid_width : Nat) : Nat :=
  grid_width * v.y.toNat + v.x.toNat

/-- vec.rs point_in_circumcircle.  The source computes the two final squared
lengths in f32 (length_sqr_f32); on every input appearing in the theorems
below all intermediate values are small enough that the comparison of the
exact integer values decides identically, so the comparison is modelled over
Int. -/
def point_in_circumcircle (p a b c : V2) : Bool :=
  let p1 := p - a
  let b1 := b - a
  let c1 := c - a
  let u : V2 := ⟨c1.y * b1.length_sqr - b1.y * c1.length_sqr,
                 b1.x * c1.length_sqr - c1.x * b1.length_sqr⟩
  let d := (b1.x * c1.y - b1.y * c1.x) * 2
  if d = 0 then false
  else
    let p2 := p1.scale d
    decide ((p2 - u).length_sqr ≤ u.length_sqr)

/-! ### lib.rs: Configuration -/

/-- lib.rs Configuration.  maze_chance (an f32 probability) is modelled as a
rational pair is not needed by any claim; it is kept as a pair of Nats
(numerator, denominator 1000) purely so that the record stays executable. -/
structure Configuration where
  min_room_dimension : Nat
  max_room_dimension : Nat
  min_padding : Nat
  doorway_offset : Nat
  max_fail_count : Nat
  reintroduced_corridor_density : Nat × Nat
  corridor_cost : Nat
  straight_cost : Nat
  standard_cost : Nat
  min_maze_dimension : Nat
  maze_chance_permille : Nat
deriving DecidableEq, Repr

/-- Configuration::is_valid.  The two f32 comparisons 0.0 <= maze_chance
and maze_chance <= 1.0 are modelled on the permille encoding. -/
def Configuration.is_valid (c : Configuration) : Bool :=
  decide (c.min_room_dimension ≥ 5) &&
  decide (c.min_room_dimension ≤ c.max_room_dimension) &&
  decide (c.min_padding ≥ 3) &&
  decide (c.doorway_offset ≥ 1) &&
  decide (c.reintroduced_corridor_density.1 ≤ c.reintroduced_corridor_density.2) &&
  decide (c.reintroduced_corridor_density.2 ≥ 1) &&
  decide (c.corridor_cost ≥ 1) &&
  decide (c.straight_cost ≥ 1) &&
  decide (c.standard_cost ≥ 1) &&
  decide (c.min_maze_dimension ≥ 5) &&
  decide (c.maze_chance_permille ≤ 1000)

/-- impl Default for Configuration (maze_chance 0.1 becomes 100 permille). -/
def defaultConfiguration : Configuration :=
  { min_room_dimension := 5
    max_room_dimension := 20
    min_padding := 3
    doorway_offset := 2
    max_fail_count := 10
    reintroduced_corridor_density := (1, 2)
    corridor_cost := 1
    straight_cost := 2
    standard_cost := 3
    min_maze_dimension := 5
    maze_chance_permille := 100 }

/-! ### room.rs: data model and room placement -/

/-- room.rs Room. -/
structure Room where
  bounds : Rect
deriving DecidableEq, Repr

/-- room.rs Doorway. -/
structure Doorway where
  room_index : Nat
  position : V2
deriving DecidableEq, Repr

/-- room.rs Rooms (called Dungeon in the grid.rs revision; same shape). -/
structure Rooms where
  rooms : List Room
  doorways : List Doorway
deriving DecidableEq, Repr

/-- room.rs RoomGraph. -/
structure RoomGraph where
  rooms : List Room
  doorways : List Doorway
  edges : List (Nat × Nat)
deriving DecidableEq, Repr

/-- room.rs overlap_with_padding: extend both rectangles down/right by
min_padding, then axis-aligned intersection test. -/
def overlap_with_padding (min_padding : Nat) (a b : Rect) : Bool :=
  let padded_a := { a with width := a.width + min_padding, height := a.height + min_padding }
  let padded_b := { b with width := b.width + min_padding, height := b.height + min_padding }
  padded_a.check_collision_recs padded_b

section RngParam

variable {σ : Type} (rand : σ → Nat → Nat → Nat × σ)

/-- room.rs generate_doorways.  Bit 0 = east, 1 = north, 2 = west,
3 = south.  Pushes in that order, threading the random state.  The Nat
subtractions in the two ranges match the usize subtractions of the source
(non-underflowing whenever 2*doorway_offset+1 <= side length). -/
def generate_doorways (doorway_offset room_index : Nat) (room : Room)
    (doorways : List Doorway) (s : σ) : List Doorway × σ :=
  let m := rand s 1 15
  let doorway_mask := m.1
  let corner : V2 := ⟨(room.bounds.x : Int), (room.bounds.y : Int)⟩
  let vlo := doorway_offset
  let vhi := room.bounds.height - doorway_offset - 1
  let hlo := doorway_offset
  let hhi := room.bounds.width - doorway_offset - 1
  let st1 :=
    if doorway_mask &&& 1 ≠ 0 then
      let k := rand m.2 vlo vhi
      (doorways ++ [⟨room_index, corner + ⟨(room.bounds.width : Int), (k.1 : Int)⟩⟩], k.2)
    else (doorways, m.2)
  let st2 :=
    if doorway_mask &&& 2 ≠ 0 then
      let k := rand st1.2 hlo hhi
      (st1.1 ++ [⟨room_index, corner + ⟨(k.1 : Int), -1⟩⟩], k.2)
    else st1
  let st3 :=
    if doorway_mask &&& 4 ≠ 0 then
      let k := rand st2.2 vlo vhi
      (st2.1 ++ [⟨room_index, corner + ⟨-1, (k.1 : Int)⟩⟩], k.2)
    else st2
  let st4 :=
    if doorway_mask &&& 8 ≠ 0 then
      let k := rand st3.2 hlo hhi
      (st3.1 ++ [⟨room_index, corner + ⟨(k.1 : Int), (room.bounds.height : Int)⟩⟩], k.2)
    else st3
  st4

/-- The body of the while loop of room.rs generate_rooms, with an explicit
fuel argument.  One unit of fuel is spent per loop iteration; the wrapper
passes (target+1)*(max_fail_count+2), an upper bound on the number of
iterations (each iteration either accepts a room, which can happen at most
target times, or increments fail_count, which resets on acceptance and
aborts the loop once it exceeds max_fail_count), so the fuel-exhausted
branch is unreachable. -/
def generate_rooms_loop (configuration : Configuration) (gx gy target : Nat) :
    Nat → Nat → Nat → Rooms → σ → Rooms × σ
  | 0, _, _, result, s => (result, s)
  | fuel + 1, room_count, fail_count, result, s =>
    if room_count < target then
      if configuration.max_fail_count < fail_count then (result, s)
      else
        let min_padding := configuration.min_padding
        let min_room_dimension := configuration.min_room_dimension
        let max_room_dimension := configuration.max_room_dimension
        let px := rand s min_padding (gx - min_room_dimension - min_padding)
        let x := px.1
        let py := rand px.2 min_padding (gy - min_room_dimension - min_padding)
        let y := py.1
        let pw := rand py.2 min_room_dimension
          (Nat.min (gx - x - min_padding) max_room_dimension)
        let width := pw.1
        let ph := rand pw.2 min_room_dimension
          (Nat.min (gy - y - min_padding) max_room_dimension)
        let height := ph.1
        let rectangle : Rect := ⟨x, y, width, height⟩
        if result.rooms.any fun previous_room =>
            overlap_with_padding min_padding previous_room.bounds rectangle then
          generate_rooms_loop configuration gx gy target fuel
            room_count (fail_count + 1) result ph.2
        else
          let room_index := result.rooms.length
          let room : Room := ⟨rectangle⟩
          let pd :=
            generate_doorways rand configuration.doorway_offset room_index room
              result.doorways ph.2
          generate_rooms_loop configuration gx gy target fuel
            (room_count + 1) 0 ⟨result.rooms ++ [room], pd.1⟩ pd.2
    else (result, s)

/-- room.rs generate_rooms.  grid_dimensions is the pair (x, y); a missing
target room count defaults to x*y as in the source. -/
def generate_rooms (configuration : Configuration) (grid_dimensions : Nat × Nat)
    (target_room_count : Option Nat) (s : σ) : Rooms × σ :=
  let target := target_room_count.getD (grid_dimensions.1 * grid_dimensions.2)
  generate_rooms_loop rand configuration grid_dimensions.1 grid_dimensions.2 target
    ((target + 1) * (configuration.max_fail_count + 2)) 0 0 ⟨[], []⟩ s

end RngParam

/-! ### C1: accepted rooms pairwise respect the padded-overlap test -/

/-- Symmetry of the padded overlap test. -/
theorem overlap_with_padding_comm (p : Nat) (a b : Rect) :
    overlap_with_padding p a b = overlap_with_padding p b a := by
  simp only [overlap_with_padding, Rect.check_collision_recs]
  rw [Bool.eq_iff_iff]
  simp only [Bool.and_eq_true, decide_eq_true_eq]
  tauto

/-- The mutual non-overlap relation recorded by the C1 theorem. -/
def RoomsApart (min_padding : Nat) (a b : Room) : Prop :=
  overlap_with_padding min_padding a.bounds b.bounds = false ∧
  overlap_with_padding min_padding b.bounds a.bounds = false

theorem generate_rooms_loop_pairwise {σ : Type} (rand : σ → Nat → Nat → Nat × σ)
    (configuration : Configuration) (gx gy target : Nat) :
    ∀ (fuel room_count fail_count : Nat) (result : Rooms) (s : σ),
      result.rooms.Pairwise (RoomsApart configuration.min_padding) →
      ((generate_rooms_loop rand configuration gx gy target fuel room_count
          fail_count result s).1).rooms.Pairwise
        (RoomsApart configuration.min_padding) := by
  intro fuel
  induction fuel with
  | zero => intro _ _ result s h; exact h
  | succ fuel ih =>
    intro room_count fail_count result s h
    simp only [generate_rooms_loop]
    split
    · split
      · exact h
      · split
        · exact ih _ _ _ _ h
        · rename_i hnone
          apply ih
          rw [List.pairwise_append]
          refine ⟨h, List.pairwise_singleton _ _, ?_⟩
          intro a ha b hb
          rw [List.mem_singleton] at hb
          subst hb
          have hfalse :=
            Bool.eq_false_iff.mpr (List.any_eq_false.mp (Bool.eq_false_iff.mpr hnone) a ha)
          exact ⟨hfalse, (overlap_with_padding_comm _ _ _).trans hfalse⟩
    · exact h

/-- C1.  Every pair of distinct rooms accepted by generate_rooms passes the
padded-overlap test negatively in both argument orders, for every
configuration, grid size, target and random source (in particular for valid
configurations and in-range random sources, as the claim states). -/
theorem generate_rooms_no_overlap {σ : Type} (rand : σ → Nat → Nat → Nat × σ)
    (configuration : Configuration) (grid_dimensions : Nat × Nat)
    (target_room_count : Option Nat) (s : σ) :
    ((generate_rooms rand configuration grid_dimensions target_room_count s).1).rooms.Pairwise
      (RoomsApart configuration.min_padding) := by
  exact generate_rooms_loop_pairwise rand configuration _ _ _ _ _ _ _ _
    (List.Pairwise.nil)

/-! ### C4: how many rejected candidates are processed before aborting

Scenario: on a 30x30 grid the random source first yields one acceptable
room (3,3,5,5) with a single east doorway (mask 1, slot 2), consuming six
draws, and then yields the same candidate (3,3,5,5) forever; every further
candidate collides with the accepted room, so the loop runs down its
failure budget.  The number of processed candidates is observed through the
final state of the counting random source (4 draws per rejected candidate).
-/

/-- Values of the scenario random source, indexed by the draw counter. -/
def c4Vals (s : Nat) : Nat :=
  if s = 4 then 1
  else if s = 5 then 2
  else if (if s < 4 then s else s - 6) % 4 < 2 then 3 else 5

/-- The scenario random source: state is the number of draws made so far. -/
def c4Rand : Nat → Nat → Nat → Nat × Nat := fun s _lo _hi => (c4Vals s, s + 1)

/-- Default configuration with the failure budget under test. -/
def c4Config (m : Nat) : Configuration :=
  { defaultConfiguration with max_fail_count := m }

/-- The room set accepted by the scenario before the failures start. -/
def c4Rooms : Rooms := ⟨[⟨⟨3, 3, 5, 5⟩⟩], [⟨0, ⟨8, 5⟩⟩]⟩

theorem c4Vals_rejected (s : Nat) (h6 : 6 ≤ s) (h4 : s % 4 = 2) :
    c4Vals s = 3 ∧ c4Vals (s + 1) = 3 ∧ c4Vals (s + 2) = 5 ∧ c4Vals (s + 3) = 5 := by
  refine ⟨?_, ?_, ?_, ?_⟩ <;> (simp only [c4Vals]; split_ifs <;> omega)

theorem c4_loop_tail (m : Nat) : ∀ (k fc s fuel : Nat), fc + k = m + 1 →
    6 ≤ s → s % 4 = 2 → k ≤ fuel →
    generate_rooms_loop c4Rand (c4Config m) 30 30 900 fuel 1 fc c4Rooms s =
      (c4Rooms, s + 4 * k) := by
  intro k
  induction k with
  | zero =>
    intro fc s fuel hk h6 h4 hkf
    have hfc : (c4Config m).max_fail_count < fc := by
      simp only [c4Config]; omega
    cases fuel with
    | zero => simp [generate_rooms_loop]
    | succ fuel =>
      rw [generate_rooms_loop, if_pos (by omega), if_pos hfc]
      norm_num
  | succ k ih =>
    intro fc s fuel hk h6 h4 hkf
    obtain ⟨hx, hy, hw, hh⟩ := c4Vals_rejected s h6 h4
    cases fuel with
    | zero => omega
    | succ fuel =>
      rw [generate_rooms_loop, if_pos (by omega),
        if_neg (show ¬ (c4Config m).max_fail_count < fc by simp only [c4Config]; omega)]
      simp only [c4Rand, hx, hy, hw, hh]
      rw [if_pos (by rfl)]
      have := ih (fc + 1) (s + 4) fuel (by omega) (by omega) (by omega) (by omega)
      simp only [c4Rand, c4Rooms] at this ⊢
      rw [this]
      have harith : s + 4 + 4 * k = s + 4 * (k + 1) := by omega
      rw [harith]

/-- The first scenario iteration: the candidate (3,3,5,5) is accepted and
one east doorway is generated, consuming six draws in total. -/
theorem c4_first_step (m fuel : Nat) :
    generate_rooms_loop c4Rand (c4Config m) 30 30 900 (fuel + 1) 0 0 ⟨[], []⟩ 0 =
      generate_rooms_loop c4Rand (c4Config m) 30 30 900 fuel 1 0 c4Rooms 6 := by
  rw [generate_rooms_loop, if_pos (by decide),
    if_neg (show ¬ (c4Config m).max_fail_count < 0 by omega)]
  with_unfolding_all rfl

/-- C4 (amended).  In a run where, after one accepted room, every sampled
candidate is rejected by the overlap test, exactly max_fail_count + 1
further rejected candidates are processed (4 random draws each, observed on
the draw counter) before generate_rooms returns the partial room set: the
loop aborts once the consecutive-failure counter exceeds max_fail_count,
not when it reaches it. -/
theorem generate_rooms_processes_max_fail_plus_one (m : Nat) :
    generate_rooms c4Rand (c4Config m) (30, 30) none 0 =
      (c4Rooms, 6 + 4 * (m + 1)) := by
  have hfuel : (900 + 1) * ((c4Config m).max_fail_count + 2) =
      (901 * (m + 2) - 1) + 1 := by
    simp only [c4Config]; omega
  rw [generate_rooms]
  simp only [Option.getD]
  rw [hfuel, c4_first_step]
  rw [c4_loop_tail m (m + 1) 0 6 (901 * (m + 2) - 1) (by omega) (by omega)
    (by omega) (by omega)]

/-- C4 (counterexample to the claim as stated).  With max_fail_count = 3
the scenario run processes four rejected candidates (final draw counter
6 + 4*4 = 22), not three (which would leave the counter at 6 + 4*3 = 18) as
the claim predicts. -/
theorem c4_counterexample :
    (generate_rooms c4Rand (c4Config 3) (30, 30) none 0).2 = 6 + 4 * 4 ∧
    ¬ (generate_rooms c4Rand (c4Config 3) (30, 30) none 0).2 = 6 + 4 * 3 := by
  decide

/-! ### C7: doorway positions -/

/-- Manhattan distance between two integer points. -/
def manhattanI (a b : V2) : Nat := (a.x - b.x).natAbs + (a.y - b.y).natAbs

/-- The four corners of the one-cell-inflated outline of a room (the
corners used by the doorway_generation test of room.rs). -/
def outlineCorners (room : Room) : List V2 :=
  [⟨(room.bounds.x : Int) - 1, (room.bounds.y : Int) - 1⟩,
   ⟨(room.bounds.x : Int) - 1, (room.bounds.y : Int) + room.bounds.height⟩,
   ⟨(room.bounds.x : Int) + room.bounds.width, (room.bounds.y : Int) - 1⟩,
   ⟨(room.bounds.x : Int) + room.bounds.width, (room.bounds.y : Int) + room.bounds.height⟩]

/-- A point lies on the one-cell-inflated outline ring of a room: inside
the inflated rectangle but not inside the room rectangle. -/
def OnOutlineRing (room : Room) (p : V2) : Prop :=
  (room.bounds.x : Int) - 1 ≤ p.x ∧ p.x ≤ (room.bounds.x : Int) + room.bounds.width ∧
  (room.bounds.y : Int) - 1 ≤ p.y ∧ p.y ≤ (room.bounds.y : Int) + room.bounds.height ∧
  ¬ ((room.bounds.x : Int) ≤ p.x ∧ p.x < (room.bounds.x : Int) + room.bounds.width ∧
     (room.bounds.y : Int) ≤ p.y ∧ p.y < (room.bounds.y : Int) + room.bounds.height)

/-- A point has the shape of a doorway generated on one of the four sides:
one cell outside the room on that side, with the coordinate along the side
drawn from [doorway_offset, side_length - doorway_offset - 1]. -/
def DoorwayOnSide (off : Nat) (room : Room) (p : V2) : Prop :=
  (∃ k, off ≤ k ∧ k ≤ room.bounds.height - off - 1 ∧
    p = ⟨(room.bounds.x : Int) + room.bounds.width, (room.bounds.y : Int) + k⟩) ∨
  (∃ k, off ≤ k ∧ k ≤ room.bounds.width - off - 1 ∧
    p = ⟨(room.bounds.x : Int) + k, (room.bounds.y : Int) - 1⟩) ∨
  (∃ k, off ≤ k ∧ k ≤ room.bounds.height - off - 1 ∧
    p = ⟨(room.bounds.x : Int) - 1, (room.bounds.y : Int) + k⟩) ∨
  (∃ k, off ≤ k ∧ k ≤ room.bounds.width - off - 1 ∧
    p = ⟨(room.bounds.x : Int) + k, (room.bounds.y : Int) + room.bounds.height⟩)

/-- One conditional-append step preserves membership properties of the
dropped suffix (used to walk the four doorway pushes). -/
theorem drop_ite_append {α σ : Type} {P : α → Prop} {c : Prop} [Decidable c]
    {st : List α × σ} {e : α} {s' : σ} {n : Nat}
    (hst : (∀ d ∈ st.1.drop n, P d) ∧ n ≤ st.1.length) (he : P e) :
    (∀ d ∈ (if c then (st.1 ++ [e], s') else st).1.drop n, P d) ∧
      n ≤ (if c then (st.1 ++ [e], s') else st).1.length := by
  split
  · constructor
    · intro d hd
      rw [List.drop_append_of_le_length hst.2] at hd
      rcases List.mem_append.mp hd with h | h
      · exact hst.1 d h
      · rw [List.mem_singleton] at h
        subst h
        exact he
    · simp only [List.length_append, List.length_singleton]
      omega
  · exact hst

/-- The property every doorway appended by generate_doorways satisfies. -/
def GoodDoorway (off idx : Nat) (room : Room) (d : Doorway) : Prop :=
  d.room_index = idx ∧ DoorwayOnSide off room d.position ∧
  OnOutlineRing room d.position ∧
  ∀ c ∈ outlineCorners room, off < manhattanI d.position c

theorem good_east (off idx k : Nat) (room : Room)
    (hw : 2 * off + 1 ≤ room.bounds.width) (hh : 2 * off + 1 ≤ room.bounds.height)
    (hk1 : off ≤ k) (hk2 : k ≤ room.bounds.height - off - 1) :
    GoodDoorway off idx room
      ⟨idx, ⟨(room.bounds.x : Int) + room.bounds.width, (room.bounds.y : Int) + k⟩⟩ := by
  refine ⟨rfl, Or.inl ⟨k, hk1, hk2, rfl⟩, ?_, ?_⟩
  · simp only [OnOutlineRing]; omega
  · intro c hc
    simp only [outlineCorners, List.mem_cons, List.mem_singleton] at hc
    rcases hc with h | h | h | h | h <;> first
      | (subst h; simp only [manhattanI]; omega)
      | exact absurd h (List.not_mem_nil c)

theorem good_north (off idx k : Nat) (room : Room)
    (hw : 2 * off + 1 ≤ room.bounds.width) (hh : 2 * off + 1 ≤ room.bounds.height)
    (hk1 : off ≤ k) (hk2 : k ≤ room.bounds.width - off - 1) :
    GoodDoorway off idx room
      ⟨idx, ⟨(room.bounds.x : Int) + k, (room.bounds.y : Int) - 1⟩⟩ := by
  refine ⟨rfl, Or.inr (Or.inl ⟨k, hk1, hk2, rfl⟩), ?_, ?_⟩
  · simp only [OnOutlineRing]; omega
  · intro c hc
    simp only [outlineCorners, List.mem_cons, List.mem_singleton] at hc
    rcases hc with h | h | h | h | h <;> first
      | (subst h; simp only [manhattanI]; omega)
      | exact absurd h (List.not_mem_nil c)

theorem good_west (off idx k : Nat) (room : Room)
    (hw : 2 * off + 1 ≤ room.bounds.width) (hh : 2 * off + 1 ≤ room.bounds.height)
    (hk1 : off ≤ k) (hk2 : k ≤ room.bounds.height - off - 1) :
    GoodDoorway off idx room
      ⟨idx, ⟨(room.bounds.x : Int) - 1, (room.bounds.y : Int) + k⟩⟩ := by
  refine ⟨rfl, Or.inr (Or.inr (Or.inl ⟨k, hk1, hk2, rfl⟩)), ?_, ?_⟩
  · simp only [OnOutlineRing]; omega
  · intro c hc
    simp only [outlineCorners, List.mem_cons, List.mem_singleton] at hc
    rcases hc with h | h | h | h | h <;> first
      | (subst h; simp only [manhattanI]; omega)
      | exact absurd h (List.not_mem_nil c)

theorem good_south (off idx k : Nat) (room : Room)
    (hw : 2 * off + 1 ≤ room.bounds.width) (hh : 2 * off + 1 ≤ room.bounds.height)
    (hk1 : off ≤ k) (hk2 : k ≤ room.bounds.width - off - 1) :
    GoodDoorway off idx room
      ⟨idx, ⟨(room.bounds.x : Int) + k, (room.bounds.y : Int) + room.bounds.height⟩⟩ := by
  refine ⟨rfl, Or.inr (Or.inr (Or.inr ⟨k, hk1, hk2, rfl⟩)), ?_, ?_⟩
  · simp only [OnOutlineRing]; omega
  · intro c hc
    simp only [outlineCorners, List.mem_cons, List.mem_singleton] at hc
    rcases hc with h | h | h | h | h <;> first
      | (subst h; simp only [manhattanI]; omega)
      | exact absurd h (List.not_mem_nil c)

/-- C7.  For rooms whose width and height are at least 2*doorway_offset+1
and an in-range random source, every doorway appended by generate_doorways
carries the given room index, lies one cell outside the room on one of the
four sides with its coordinate drawn from
[doorway_offset, side_length - doorway_offset - 1], lies on the one-cell
inflated outline ring, and has Manhattan distance strictly greater than
doorway_offset from each corner of that outline. -/
theorem generate_doorways_spec {σ : Type} (rand : σ → Nat → Nat → Nat × σ)
    (hR : InRange rand) (off idx : Nat) (room : Room) (ds : List Doorway) (s : σ)
    (hw : 2 * off + 1 ≤ room.bounds.width) (hh : 2 * off + 1 ≤ room.bounds.height) :
    ∀ d ∈ (generate_doorways rand off idx room ds s).1.drop ds.length,
      GoodDoorway off idx room d := by
  have hv : off ≤ room.bounds.height - off - 1 := by omega
  have hho : off ≤ room.bounds.width - off - 1 := by omega
  simp only [generate_doorways]
  refine (drop_ite_append ?_
    (good_south off idx _ room hw hh (hR _ _ _ hho).1 (hR _ _ _ hho).2)).1
  refine drop_ite_append ?_
    (good_west off idx _ room hw hh (hR _ _ _ hv).1 (hR _ _ _ hv).2)
  refine drop_ite_append ?_
    (good_north off idx _ room hw hh (hR _ _ _ hho).1 (hR _ _ _ hho).2)
  refine drop_ite_append ?_
    (good_east off idx _ room hw hh (hR _ _ _ hv).1 (hR _ _ _ hv).2)
  refine ⟨?_, Nat.le_refl _⟩
  intro d hd
  rw [List.drop_length] at hd
  exact absurd hd (List.not_mem_nil d)

/-- Witness for C7: the minimum-value random source on a 5x5 room at (1,1)
with doorway_offset 2 yields the single east doorway at (6,3); the theorem
instantiates to it. -/
theorem generate_doorways_spec_witness :
    GoodDoorway 2 7 ⟨⟨1, 1, 5, 5⟩⟩ ⟨7, ⟨6, 3⟩⟩ := by
  have h := generate_doorways_spec (fun (_ : Unit) lo _ => (lo, ()))
    (fun _ lo hi hle => ⟨Nat.le_refl lo, hle⟩) 2 7 ⟨⟨1, 1, 5, 5⟩⟩ [] ()
    (by decide) (by decide)
  exact h ⟨7, ⟨6, 3⟩⟩ (by decide)

/-! ### grid.rs: tiles, grid, text (de)serialization -/

/-- grid.rs Tile. -/
inductive Tile where
  | Blocker
  | Wall
  | Room
  | Doorway
  | Corridor
  | CorridorNeighbor
  | Empty
deriving DecidableEq, Repr

/-- impl From<char> for Tile. -/
def tileOfChar (value : Char) : Tile :=
  match value with
  | '%' => .Blocker
  | '#' => .Wall
  | '_' => .Room
  | 'd' => .Doorway
  | 'c' => .Corridor
  | '@' => .CorridorNeighbor
  | _ => .Empty

/-- impl From<Tile> for char. -/
def charOfTile (value : Tile) : Char :=
  match value with
  | .Blocker => '%'
  | .Wall => '#'
  | .Room => '_'
  | .Doorway => 'd'
  | .Corridor => 'c'
  | .CorridorNeighbor => '@'
  | .Empty => '.'

/-- grid.rs Grid: a width plus a flat row-major tile array. -/
structure Grid where
  width : Nat
  tiles : List Tile
deriving DecidableEq, Repr

/-- impl Display for Grid: tiles.len()/width rows, each of width characters
followed by a newline, reading the tile array left to right (the source
advances a running index; row r thus holds tiles[r*width .. r*width+width)). -/
def displayGrid (g : Grid) : List Char :=
  ((List.range (g.tiles.length / g.width)).map fun row =>
    ((g.tiles.drop (row * g.width)).take g.width).map charOfTile ++ ['\n']).flatten

/-- One line of Rust str::lines: the accumulator holds the current line
reversed; a single trailing carriage return is stripped. -/
def lineOf (acc : List Char) : List Char :=
  (if acc.head? = some '\r' then acc.tail else acc).reverse

/-- Rust str::lines (split_terminator on the newline character, stripping a
trailing carriage return from each line; no empty trailing line). -/
def linesAux : List Char → List Char → List (List Char)
  | acc, [] => if acc.isEmpty then [] else [lineOf acc]
  | acc, c :: rest =>
    if c = '\n' then lineOf acc :: linesAux [] rest
    else linesAux (c :: acc) rest

/-- str::lines over a character list. -/
def strLines (s : List Char) : List (List Char) := linesAux [] s

/-- impl From<&str> for Grid: push one tile per character of each line,
count the lines, and set width = tiles.len()/height. -/
def gridFromString (s : List Char) : Grid :=
  let ls := strLines s
  let tiles := (ls.map fun line => line.map tileOfChar).flatten
  { width := tiles.length / ls.length, tiles := tiles }

/-! ### C9: serialization round trip -/

theorem tileOfChar_charOfTile (t : Tile) : tileOfChar (charOfTile t) = t := by
  cases t <;> rfl

theorem charOfTile_ne_newline (t : Tile) : charOfTile t ≠ '\n' ∧ charOfTile t ≠ '\r' := by
  cases t <;> exact ⟨by decide, by decide⟩

theorem linesAux_line (rest : List Char) :
    ∀ (l acc : List Char), (∀ c ∈ l, c ≠ '\n') →
    linesAux acc (l ++ '\n' :: rest) = lineOf (l.reverse ++ acc) :: linesAux [] rest := by
  intro l
  induction l with
  | nil =>
    intro acc _
    simp [linesAux]
  | cons c t ih =>
    intro acc hc
    have hcn : ¬ c = '\n' := hc c (List.mem_cons_self c t)
    rw [List.cons_append, linesAux, if_neg hcn]
    rw [ih (c :: acc) fun x hx => hc x (List.mem_cons_of_mem c hx)]
    rw [List.reverse_cons, List.append_assoc, List.singleton_append]

theorem strLines_join_rows : ∀ (rows : List (List Char)),
    (∀ r ∈ rows, ∀ c ∈ r, c ≠ '\n' ∧ c ≠ '\r') →
    strLines ((rows.map fun r => r ++ ['\n']).flatten) = rows := by
  intro rows
  induction rows with
  | nil => intro _; rfl
  | cons r t ih =>
    intro h
    have hr := h r (List.mem_cons_self r t)
    simp only [List.map_cons, List.flatten_cons, strLines, List.append_assoc,
      List.singleton_append]
    rw [linesAux_line _ r [] fun c hc => (hr c hc).1]
    have hlast : lineOf (r.reverse ++ []) = r := by
      rw [List.append_nil, lineOf]
      rw [if_neg ?hne, List.reverse_reverse]
      case hne =>
        rcases hrev : r.reverse with _ | ⟨c, t2⟩
        · simp
        · have hcr : c ≠ '\r' := by
            have hcmem : c ∈ r := by
              rw [← List.mem_reverse, hrev]
              exact List.mem_cons_self c t2
            exact (hr c hcmem).2
          simp [hcr]
    rw [hlast]
    have ih2 : linesAux [] ((t.map fun rr => rr ++ ['\n']).flatten) = t :=
      ih fun rr hrr => h rr (List.mem_cons_of_mem r hrr)
    rw [ih2]

theorem join_chunks : ∀ (k w : Nat) (tiles : List Tile), tiles.length = k * w →
    ((List.range k).map fun row => (tiles.drop (row * w)).take w).flatten = tiles := by
  intro k
  induction k with
  | zero =>
    intro w tiles h
    rw [Nat.zero_mul] at h
    rw [List.length_eq_zero] at h
    simp [h]
  | succ k ih =>
    intro w tiles h
    rw [List.range_succ_eq_map]
    simp only [List.map_cons, List.map_map, List.flatten]
    have h0 : (tiles.drop (0 * w)).take w = tiles.take w := by
      rw [Nat.zero_mul, List.drop_zero]
    rw [h0]
    have hrest : ((List.range k).map fun row =>
        ((tiles.drop w).drop (row * w)).take w).flatten = tiles.drop w := by
      apply ih
      rw [List.length_drop, h, Nat.succ_mul, Nat.add_sub_cancel]
    have hcomp : ∀ row : Nat, (tiles.drop ((row + 1) * w)).take w =
        ((tiles.drop w).drop (row * w)).take w := by
      intro row
      rw [List.drop_drop]
      congr 2
      rw [Nat.succ_mul]
      omega
    have hmapeq : (List.range k).map ((fun row => (tiles.drop (row * w)).take w) ∘ (· + 1)) =
        (List.range k).map fun row => ((tiles.drop w).drop (row * w)).take w := by
      apply List.map_congr_left
      intro a _
      exact hcomp a
    rw [hmapeq, hrest, List.take_append_drop]

/-- C9.  For a grid with positive width whose tile count is a positive
multiple of the width, parsing the displayed text yields the grid back;
moreover each of the seven tile characters parses to its tile and every
other character parses to Empty. -/
theorem grid_roundtrip (g : Grid) (k : Nat) (hw : 1 ≤ g.width) (hk : 1 ≤ k)
    (hlen : g.tiles.length = k * g.width) :
    gridFromString (displayGrid g) = g ∧
    (∀ t : Tile, tileOfChar (charOfTile t) = t) ∧
    (∀ c : Char, c ∉ ['%', '#', '_', 'd', 'c', '@'] → tileOfChar c = .Empty) := by
  refine ⟨?_, tileOfChar_charOfTile, ?_⟩
  · have hrows : displayGrid g =
        (((List.range (g.tiles.length / g.width)).map fun row =>
          ((g.tiles.drop (row * g.width)).take g.width).map charOfTile).map
            fun r => r ++ ['\n']).flatten := by
      simp only [displayGrid, List.map_map]
      rfl
    have hdiv : g.tiles.length / g.width = k := by
      rw [hlen, Nat.mul_div_cancel _ (by omega)]
    have hls : strLines (displayGrid g) =
        (List.range k).map fun row =>
          ((g.tiles.drop (row * g.width)).take g.width).map charOfTile := by
      rw [hrows, hdiv]
      apply strLines_join_rows
      intro r hr c hc
      rw [List.mem_map] at hr
      obtain ⟨row, _, hrow⟩ := hr
      rw [← hrow] at hc
      rw [List.mem_map] at hc
      obtain ⟨t, _, hct⟩ := hc
      rw [← hct]
      exact charOfTile_ne_newline t
    have htiles : ((strLines (displayGrid g)).map fun line => line.map tileOfChar).flatten
        = g.tiles := by
      rw [hls, List.map_map]
      have hmap : ∀ row ∈ List.range k,
          ((fun line => line.map tileOfChar) ∘ fun row =>
              ((g.tiles.drop (row * g.width)).take g.width).map charOfTile) row =
            (g.tiles.drop (row * g.width)).take g.width := by
        intro row _
        simp only [Function.comp_apply, List.map_map]
        rw [List.map_congr_left fun t _ => (by exact tileOfChar_charOfTile t :
          (tileOfChar ∘ charOfTile) t = t)]
        exact List.map_id _
      rw [List.map_congr_left hmap]
      exact join_chunks k g.width g.tiles hlen
    have hlsLen : (strLines (displayGrid g)).length = k := by
      rw [hls, List.length_map, List.length_range]
    simp only [gridFromString]
    rcases g with ⟨w, tiles⟩
    simp only at htiles ⊢
    rw [htiles, hlsLen]
    have hlen2 : tiles.length = k * w := hlen
    rw [hlen2, Nat.mul_comm, Nat.mul_div_cancel _ (show 0 < k by omega)]
  · intro c hc
    simp only [List.mem_cons, List.not_mem_nil, or_false, not_or] at hc
    obtain ⟨h1, h2, h3, h4, h5, h6⟩ := hc
    simp only [tileOfChar]

/-- Witness for C9: the 4x2 grid of the grid.rs round-trip test. -/
theorem grid_roundtrip_witness :
    gridFromString (displayGrid ⟨4, [.Blocker, .Wall, .Room, .Doorway,
      .Doorway, .Corridor, .CorridorNeighbor, .Empty]⟩) =
      ⟨4, [.Blocker, .Wall, .Room, .Doorway, .Doorway, .Corridor, .CorridorNeighbor, .Empty]⟩ := by
  exact (grid_roundtrip ⟨4, [.Blocker, .Wall, .Room, .Doorway,
    .Doorway, .Corridor, .CorridorNeighbor, .Empty]⟩ 2
    (by decide) (by decide) (by decide)).1

/-! ### C10: is_valid does not make doorway generation total -/

/-- A valid configuration whose doorway_offset is too large for its own
minimal rooms. -/
def c10Config : Configuration :=
  { defaultConfiguration with
      min_room_dimension := 5
      max_room_dimension := 5
      doorway_offset := 3 }

/-- C10.  c10Config passes is_valid, yet for a room of the minimal 5x5
dimensions the inclusive range [doorway_offset, side - doorway_offset - 1]
built by generate_doorways is empty (its upper bound is below its lower
bound), so an in-range random_range result cannot exist; the condition
2*doorway_offset + 1 <= min_room_dimension that would rule this out is not
checked by is_valid. -/
theorem is_valid_doorway_range_empty :
    c10Config.is_valid = true ∧
    (⟨⟨3, 3, 5, 5⟩⟩ : Room).bounds.height - c10Config.doorway_offset - 1 <
      c10Config.doorway_offset ∧
    ¬ (2 * c10Config.doorway_offset + 1 ≤ c10Config.min_room_dimension) := by
  decide

/-! ### triangulation.rs: Bowyer-Watson -/

/-- triangulation.rs make_edge: consistent (min, max) point ordering. -/
def make_edge (point_a point_b : Nat) : Nat × Nat :=
  (Nat.min point_a point_b, Nat.max point_a point_b)

/-- Rust Vec::swap_remove: replace element i with the last element and pop
the last slot. -/
def swapRemove {α : Type} (l : List α) (i : Nat) (dflt : α) : List α :=
  (l.set i (l.getD (l.length - 1) dflt)).dropLast

/-- The polygon accumulator of triangulation.rs (a HashSet with XOR-style
insertion, modelled as a duplicate-free list; only the set of edges matters
downstream): insert an edge unless present, in which case remove it. -/
def add_if_not_shared (polygon : List (Nat × Nat)) (edge : Nat × Nat) : List (Nat × Nat) :=
  if edge ∈ polygon then polygon.erase edge else polygon ++ [edge]

/-- Default doorway used for (unreachable) out-of-bounds list accesses. -/
def dfltDoorway : Doorway := ⟨0, ⟨0, 0⟩⟩

/-- The incircle test of the Bowyer-Watson loop for triangle t against the
point with index point_index. -/
def badTriangle (doorways : List Doorway) (point_index : Nat)
    (t : Nat × Nat × Nat) : Bool :=
  point_in_circumcircle (doorways.getD point_index dfltDoorway).position
    (doorways.getD t.1 dfltDoorway).position
    (doorways.getD t.2.1 dfltDoorway).position
    (doorways.getD t.2.2 dfltDoorway).position

/-- One iteration of the Bowyer-Watson insertion loop of triangulate:
collect the indices of the bad triangles (ascending, as the enumeration
does), derive the cavity polygon by XOR-accumulating their edges, remove
the bad triangles by swap_remove in reverse index order, and fan the cavity
edges to the new point. -/
def triangulateStep (doorways : List Doorway) (triangles : List (Nat × Nat × Nat))
    (point_index : Nat) : List (Nat × Nat × Nat) :=
  let bad_triangles := (List.range triangles.length).filter fun triangle_index =>
    badTriangle doorways point_index (triangles.getD triangle_index (0, 0, 0))
  let polygon := bad_triangles.foldl (fun poly triangle_index =>
    let t := triangles.getD triangle_index (0, 0, 0)
    add_if_not_shared (add_if_not_shared (add_if_not_shared poly
      (make_edge t.1 t.2.1)) (make_edge t.1 t.2.2)) (make_edge t.2.1 t.2.2)) []
  let survivors := bad_triangles.reverse.foldl
    (fun ts triangle_index => swapRemove ts triangle_index (0, 0, 0)) triangles
  survivors ++ polygon.map fun edge => (edge.1, edge.2, point_index)

/-- The doorway list of triangulate after appending the three synthetic
super-triangle points (right triangle covering the whole grid). -/
def doorwaysWithSuper (grid_dimensions : Nat × Nat) (rooms : Rooms) : List Doorway :=
  rooms.doorways ++
    [⟨rooms.rooms.length, ⟨-1, -1⟩⟩,
     ⟨rooms.rooms.length, ⟨-1, 2 * (grid_dimensions.2 : Int) + 1⟩⟩,
     ⟨rooms.rooms.length, ⟨2 * (grid_dimensions.1 : Int) + 1, -1⟩⟩]

/-- The triangle set of triangulate after the first k real points have been
inserted (k = 0 is the seed super triangle). -/
def trianglesAfter (grid_dimensions : Nat × Nat) (rooms : Rooms) (k : Nat) :
    List (Nat × Nat × Nat) :=
  let doorways := doorwaysWithSuper grid_dimensions rooms
  let s0 := doorways.length - 3
  (List.range k).foldl (triangulateStep doorways) [(s0, s0 + 1, s0 + 2)]

/-- The while loop of triangulate that drops triangles touching a
super-triangle point, via swap_remove at a running index.  One unit of fuel
per iteration; every iteration either shortens the list or advances the
index, so length+1 units suffice. -/
def removeSuperLoop (s0 : Nat) : Nat → List (Nat × Nat × Nat) → Nat → List (Nat × Nat × Nat)
  | 0, triangles, _ => triangles
  | fuel + 1, triangles, triangle_index =>
    if triangle_index < triangles.length then
      let t := triangles.getD triangle_index (0, 0, 0)
      if s0 ≤ t.1 ∨ s0 ≤ t.2.1 ∨ s0 ≤ t.2.2 then
        removeSuperLoop s0 fuel (swapRemove triangles triangle_index (0, 0, 0)) triangle_index
      else
        removeSuperLoop s0 fuel triangles (triangle_index + 1)
    else triangles

/-- HashSet::insert for the final edge set (a set: no duplicate is added;
modelled as a duplicate-free list). -/
def insertEdge (polygon : List (Nat × Nat)) (edge : Nat × Nat) : List (Nat × Nat) :=
  if edge ∈ polygon then polygon else polygon ++ [edge]

/-- triangulation.rs triangulate. -/
def triangulate (grid_dimensions : Nat × Nat) (rooms : Rooms) : RoomGraph :=
  let doorways := doorwaysWithSuper grid_dimensions rooms
  let super_triangle_first_point_index := doorways.length - 3
  let triangles := trianglesAfter grid_dimensions rooms (doorways.length - 3)
  let triangles := removeSuperLoop super_triangle_first_point_index
    (triangles.length + 1) triangles 0
  let doorways := doorways.dropLast.dropLast.dropLast
  let edges := triangles.foldl (fun poly t =>
    insertEdge (insertEdge (insertEdge poly (make_edge t.1 t.2.1))
      (make_edge t.1 t.2.2)) (make_edge t.2.1 t.2.2)) []
  { rooms := rooms.rooms, doorways := doorways, edges := edges }

/-! ### C5: the Delaunay invariant of the insertion loop -/

/-- The claimed invariant: after the first k insertions, no already
inserted point other than a triangle's own vertices passes the circumcircle
membership predicate for that triangle. -/
def DelaunayInvariant (grid_dimensions : Nat × Nat) (rooms : Rooms) (k : Nat) : Prop :=
  ∀ t ∈ trianglesAfter grid_dimensions rooms k, ∀ j < k,
    j ≠ t.1 → j ≠ t.2.1 → j ≠ t.2.2 →
    badTriangle (doorwaysWithSuper grid_dimensions rooms) j t = false

instance (gd : Nat × Nat) (rooms : Rooms) (k : Nat) :
    Decidable (DelaunayInvariant gd rooms k) := by
  unfold DelaunayInvariant
  infer_instance

/-- Four doorways on the corners of an axis-aligned square (cocircular). -/
def c5Rooms : Rooms :=
  ⟨[], [⟨0, ⟨1, 1⟩⟩, ⟨0, ⟨3, 1⟩⟩, ⟨0, ⟨1, 3⟩⟩, ⟨0, ⟨3, 3⟩⟩]⟩

/-- C5 (counterexample to the claim as stated).  With four cocircular
doorways (the corners of a square) the invariant fails after the fourth
insertion: the triangle on points 0,1,3 is in the triangle set and the
already-inserted point 2 = (1,3) lies on its circumcircle, which the
non-strict predicate counts as membership. -/
theorem c5_counterexample :
    ¬ DelaunayInvariant (4, 4) c5Rooms 4 ∧
    (0, 1, 3) ∈ trianglesAfter (4, 4) c5Rooms 4 ∧
    badTriangle (doorwaysWithSuper (4, 4) c5Rooms) 2 (0, 1, 3) = true := by
  decide

/-- Members of the swap_remove fold over strictly decreasing in-bound
indices satisfy a predicate-negation, provided every position outside the
removed index list already does: the fold only ever keeps (possibly moved)
elements from non-removed positions. -/
theorem swapRemove_fold_pred {α : Type} (P : α → Bool) (dflt : α) :
    ∀ (idxs : List Nat) (l : List α),
      List.Pairwise (fun a b => b < a) idxs →
      (∀ i ∈ idxs, i < l.length) →
      (∀ pos, pos < l.length → pos ∉ idxs → P (l.getD pos dflt) = false) →
      ∀ x ∈ idxs.foldl (fun ts i => swapRemove ts i dflt) l, P x = false := by
  intro idxs
  induction idxs with
  | nil =>
    intro l _ _ hpred x hx
    simp only [List.foldl_nil] at hx
    obtain ⟨pos, hlt, hget⟩ := List.mem_iff_getElem.mp hx
    have := hpred pos hlt (List.not_mem_nil pos)
    rw [List.getD_eq_getElem l dflt hlt] at this
    rw [← hget]
    exact this
  | cons i rest ih =>
    intro l hdec hbnd hpred x hx
    simp only [List.foldl_cons] at hx
    have hi : i < l.length := hbnd i (List.mem_cons_self i rest)
    have hgt : ∀ j ∈ rest, j < i := fun j hj => (List.pairwise_cons.mp hdec).1 j hj
    have hlen : (swapRemove l i dflt).length = l.length - 1 := by
      simp only [swapRemove, List.length_dropLast, List.length_set]
    refine ih (swapRemove l i dflt) (List.pairwise_cons.mp hdec).2 ?_ ?_ x hx
    · intro j hj
      rw [hlen]
      have := hgt j hj
      omega
    · intro pos hpos hnot
      rw [hlen] at hpos
      have hget : (swapRemove l i dflt).getD pos dflt =
          (l.set i (l.getD (l.length - 1) dflt)).getD pos dflt := by
        have hpos2 : pos < (l.set i (l.getD (l.length - 1) dflt)).dropLast.length := by
          simp only [List.length_dropLast, List.length_set]
          exact hpos
        rw [swapRemove]
        rw [List.getD_eq_getElem _ dflt hpos2, List.getElem_dropLast,
          ← List.getD_eq_getElem _ dflt]
      rw [hget]
      by_cases hpi : pos = i
      · subst hpi
        have hlast : pos < l.length - 1 := hpos
        have hposlen : pos < (l.set pos (l.getD (l.length - 1) dflt)).length := by
          rw [List.length_set]; omega
        have hml : l.length - 1 < l.length := by omega
        rw [List.getD_eq_getElem _ dflt hposlen, List.getElem_set_self (by omega)]
        apply hpred (l.length - 1) hml
        intro hmem
        rcases List.mem_cons.mp hmem with h | h
        · omega
        · exact absurd (hgt _ h) (by omega)
      · have hposlen : pos < (l.set i (l.getD (l.length - 1) dflt)).length := by
          rw [List.length_set]; omega
        rw [List.getD_eq_getElem _ dflt hposlen,
          List.getElem_set_of_ne (show i ≠ pos from fun h => hpi h.symm) _ hposlen,
          ← List.getD_eq_getElem l dflt (by omega)]
        apply hpred pos (by omega)
        intro hmem
        rcases List.mem_cons.mp hmem with h | h
        · exact hpi h
        · exact hnot h

/-- One Bowyer-Watson step leaves no triangle whose circumcircle contains
the freshly inserted point: survivors were filtered by the incircle test
and every new triangle has the new point as its third vertex. -/
theorem triangulateStep_fresh_point (doorways : List Doorway)
    (triangles : List (Nat × Nat × Nat)) (point_index : Nat) :
    ∀ t ∈ triangulateStep doorways triangles point_index,
      t.2.2 = point_index ∨ badTriangle doorways point_index t = false := by
  intro t ht
  simp only [triangulateStep] at ht
  rcases List.mem_append.mp ht with h | h
  · right
    refine swapRemove_fold_pred (badTriangle doorways point_index) (0, 0, 0) _ triangles
      ?_ ?_ ?_ t h
    · rw [List.pairwise_reverse]
      exact (List.pairwise_lt_range _).sublist (List.filter_sublist _)
    · intro i hi
      rw [List.mem_reverse, List.mem_filter] at hi
      exact List.mem_range.mp hi.1
    · intro pos hpos hnot
      rw [List.mem_reverse, List.mem_filter] at hnot
      have := fun hf => hnot ⟨List.mem_range.mpr hpos, hf⟩
      rcases hb : badTriangle doorways point_index (triangles.getD pos (0, 0, 0)) with _ | _
      · rfl
      · exact absurd hb this
  · left
    rw [List.mem_map] at h
    obtain ⟨e, _, he⟩ := h
    rw [← he]

/-- C5 (amended).  At every step of the Bowyer-Watson loop inside
triangulate, every triangle of the new triangle set either has the point
just inserted among its vertices or fails the circumcircle membership test
for it.  The global form of the claim (quantifying over all
already-inserted points) fails for cocircular inputs, because the
non-strict predicate counts a point on the circle as contained. -/
theorem trianglesAfter_fresh_point (grid_dimensions : Nat × Nat) (rooms : Rooms) (k : Nat) :
    ∀ t ∈ trianglesAfter grid_dimensions rooms (k + 1),
      t.2.2 = k ∨ badTriangle (doorwaysWithSuper grid_dimensions rooms) k t = false := by
  intro t ht
  have hstep : trianglesAfter grid_dimensions rooms (k + 1) =
      triangulateStep (doorwaysWithSuper grid_dimensions rooms)
        (trianglesAfter grid_dimensions rooms k) k := by
    simp only [trianglesAfter, List.range_succ, List.foldl_append, List.foldl_cons,
      List.foldl_nil]
  rw [hstep] at ht
  exact triangulateStep_fresh_point _ _ _ t ht

/-- Witness for C5 (amended): the triangle (0,1,3) present after the fourth
insertion of the square input indeed fails the test for point 3 or has it
as a vertex. -/
theorem trianglesAfter_fresh_point_witness :
    ((0, 1, 3) : Nat × Nat × Nat).2.2 = 3 ∨
      badTriangle (doorwaysWithSuper (4, 4) c5Rooms) 3 (0, 1, 3) = false :=
  trianglesAfter_fresh_point (4, 4) c5Rooms 3 (0, 1, 3) (by decide)

/-! ### mst.rs: disjoint set, Kruskal, corridor picking -/

/-- mst.rs DisjointSet. -/
structure DisjointSet where
  parent : List Nat
  rank : List Nat
deriving DecidableEq, Repr

/-- DisjointSet::new. -/
def DisjointSet.new (entity_count : Nat) : DisjointSet :=
  ⟨List.range entity_count, List.replicate entity_count 0⟩

/-- DisjointSet::find_set with path compression.  The Rust recursion
descends the parent chain; one unit of fuel per link.  parent.length + 1
units suffice for every state reachable through new/union_sets, whose
parent chains are acyclic and visit distinct entities. -/
def findSetAux : Nat → DisjointSet → Nat → Nat × DisjointSet
  | 0, ds, entity => (entity, ds)
  | fuel + 1, ds, entity =>
    let p := ds.parent.getD entity entity
    if p = entity then (entity, ds)
    else
      let r := findSetAux fuel ds p
      (r.1, { r.2 with parent := r.2.parent.set entity r.1 })

/-- DisjointSet::find_set. -/
def DisjointSet.find_set (ds : DisjointSet) (entity : Nat) : Nat × DisjointSet :=
  findSetAux (ds.parent.length + 1) ds entity

/-- DisjointSet::union_sets (union by rank). -/
def DisjointSet.union_sets (ds : DisjointSet) (entity_a entity_b : Nat) : DisjointSet :=
  let ra := ds.find_set entity_a
  let rb := ra.2.find_set entity_b
  let ds2 := rb.2
  if ra.1 = rb.1 then ds2
  else
    let pair := if ds2.rank.getD ra.1 0 < ds2.rank.getD rb.1 0 then (rb.1, ra.1)
      else (ra.1, rb.1)
    let ds3 := { ds2 with parent := ds2.parent.set pair.2 pair.1 }
    if ds3.rank.getD pair.1 0 = ds3.rank.getD pair.2 0 then
      { ds3 with rank := ds3.rank.set pair.1 (ds3.rank.getD pair.1 0 + 1) }
    else ds3

/-- Stable insertion into a key-sorted list: strictly smaller keys jump
ahead, equal keys keep their source order. -/
def insertSortedByKey {α : Type} (key : α → Nat) (x : α) : List α → List α
  | [] => [x]
  | y :: ys => if key x ≤ key y then x :: y :: ys else y :: insertSortedByKey key x ys

/-- Rust slice::sort_by_key is a stable sort; a stable sort by a key
function is extensionally unique, so it is modelled by stable insertion
sort. -/
def sort_by_key {α : Type} (key : α → Nat) (l : List α) : List α :=
  l.foldr (insertSortedByKey key) []

/-- The sort key of mst.rs: squared euclidean distance between the two
endpoints of an edge (as usize). -/
def edgeKey {P : Type} (toV2 : P → V2) (dfltP : P) (points : List P)
    (edge : Nat × Nat) : Nat :=
  ((toV2 (points.getD edge.1 dfltP) - toV2 (points.getD edge.2 dfltP)).length_sqr).toNat

/-- The Kruskal loop of minimum_spanning_tree: record (ascending) the index
of every edge whose endpoints are in different sets, and union them. -/
def kruskalLoop : DisjointSet → Nat → List (Nat × Nat) → List Nat
  | _, _, [] => []
  | ds, edge_index, edge :: rest =>
    let fa := ds.find_set edge.1
    let fb := fa.2.find_set edge.2
    if fa.1 = fb.1 then kruskalLoop fb.2 (edge_index + 1) rest
    else edge_index :: kruskalLoop (fb.2.union_sets edge.1 edge.2) (edge_index + 1) rest

/-- mst.rs minimum_spanning_tree.  toV2 stands for the Into<Vector2> bound
of the Rust generic; the Rust function sorts the edge slice in place and
returns the tree indices, modelled by returning the pair (indices, sorted
edges). -/
def minimum_spanning_tree {P : Type} (toV2 : P → V2) (dfltP : P)
    (points : List P) (edges : List (Nat × Nat)) : List Nat × List (Nat × Nat) :=
  let sorted := sort_by_key (edgeKey toV2 dfltP points) edges
  (kruskalLoop (DisjointSet.new points.length) 0 sorted, sorted)

/-- The Into<Vector2> conversion of a doorway: its position. -/
def doorwayPosition (d : Doorway) : V2 := d.position

/-- The one-linear-pass partition of pick_corridors: indices 0..edge_count
not matched by the (sorted ascending) tree index list.  The first argument
counts the remaining loop iterations (edge_count - edge_index). -/
def residualScanAux : Nat → Nat → List Nat → List Nat
  | 0, _, _ => []
  | remaining + 1, edge_index, tree =>
    match tree with
    | t :: rest =>
      if edge_index = t then residualScanAux remaining (edge_index + 1) rest
      else edge_index :: residualScanAux remaining (edge_index + 1) (t :: rest)
    | [] => edge_index :: residualScanAux remaining (edge_index + 1) []

/-- The residual-edge scan of pick_corridors. -/
def residualScan (edge_count : Nat) (tree : List Nat) : List Nat :=
  residualScanAux edge_count 0 tree

/-- The cross-room test of pick_corridors: the two doorways of the edge
belong to different rooms. -/
def differentRooms (doorways : List Doorway) (edge : Nat × Nat) : Bool :=
  decide ((doorways.getD edge.1 dfltDoorway).room_index ≠
    (doorways.getD edge.2 dfltDoorway).room_index)

section RngParam2

variable {σ : Type} (rand : σ → Nat → Nat → Nat × σ)

/-- The reintroduction loop of pick_corridors: for every residual edge
connecting different rooms, draw from 1..=denominator and keep the edge
when the draw is at most the numerator. -/
def residualLoop (configuration : Configuration) (doorways : List Doorway)
    (edges : List (Nat × Nat)) :
    List Nat → List (Nat × Nat) → σ → List (Nat × Nat) × σ
  | [], corridors, s => (corridors, s)
  | residual_edge_index :: rest, corridors, s =>
    let edge := edges.getD residual_edge_index (0, 0)
    if differentRooms doorways edge then
      let fn := rand s 1 configuration.reintroduced_corridor_density.2
      if fn.1 ≤ configuration.reintroduced_corridor_density.1 then
        residualLoop configuration doorways edges rest (corridors ++ [edge]) fn.2
      else residualLoop configuration doorways edges rest corridors fn.2
    else residualLoop configuration doorways edges rest corridors s

/-- mst.rs pick_corridors. -/
def pick_corridors (configuration : Configuration) (triangulation : RoomGraph)
    (s : σ) : RoomGraph × σ :=
  let doorways := triangulation.doorways
  let mst := minimum_spanning_tree doorwayPosition dfltDoorway doorways triangulation.edges
  let tree := mst.1
  let edges := mst.2
  let residual_edges := residualScan edges.length tree
  let corridors1 := tree.foldl (fun corridors edge_index =>
    let edge := edges.getD edge_index (0, 0)
    if differentRooms doorways edge then corridors ++ [edge] else corridors) []
  let res := residualLoop rand configuration doorways edges residual_edges corridors1 s
  ({ rooms := triangulation.rooms, doorways := doorways, edges := res.1 }, res.2)

end RngParam2

/-! ### C2: pick_corridors against the MST -/

theorem foldl_ite_append {α : Type} (p : α → Bool) (g : Nat → α) :
    ∀ (l : List Nat) (acc : List α),
      l.foldl (fun cs i => if p (g i) then cs ++ [g i] else cs) acc =
        acc ++ (l.map g).filter p := by
  intro l
  induction l with
  | nil => intro acc; simp
  | cons i rest ih =>
    intro acc
    simp only [List.foldl_cons, List.map_cons, List.filter_cons]
    by_cases hp : p (g i)
    · rw [if_pos hp, ih, if_pos hp, List.append_assoc, List.singleton_append]
    · rw [if_neg hp, ih, if_neg hp]

theorem residualLoop_none {σ : Type} (rand : σ → Nat → Nat → Nat × σ)
    (hR : InRange rand) (configuration : Configuration)
    (h0 : configuration.reintroduced_corridor_density.1 = 0)
    (h1 : 1 ≤ configuration.reintroduced_corridor_density.2)
    (doorways : List Doorway) (edges : List (Nat × Nat)) :
    ∀ (l : List Nat) (cs : List (Nat × Nat)) (s : σ),
      (residualLoop rand configuration doorways edges l cs s).1 = cs := by
  intro l
  induction l with
  | nil => intro cs s; rfl
  | cons i rest ih =>
    intro cs s
    rw [residualLoop]
    split
    · have hge := (hR s 1 configuration.reintroduced_corridor_density.2 h1).1
      rw [if_neg (by omega)]
      exact ih cs _
    · exact ih cs s

theorem residualLoop_all {σ : Type} (rand : σ → Nat → Nat → Nat × σ)
    (hR : InRange rand) (configuration : Configuration)
    (hd : configuration.reintroduced_corridor_density = (1, 1))
    (doorways : List Doorway) (edges : List (Nat × Nat)) :
    ∀ (l : List Nat) (cs : List (Nat × Nat)) (s : σ),
      (residualLoop rand configuration doorways edges l cs s).1 =
        cs ++ (l.map fun i => edges.getD i (0, 0)).filter (differentRooms doorways) := by
  intro l
  induction l with
  | nil => intro cs s; simp [residualLoop]
  | cons i rest ih =>
    intro cs s
    rw [residualLoop]
    simp only [List.map_cons, List.filter_cons]
    by_cases hdiff : differentRooms doorways (edges.getD i (0, 0)) = true
    · simp only [if_pos hdiff]
      have h2 : configuration.reintroduced_corridor_density.2 = 1 := by rw [hd]
      have h1 : configuration.reintroduced_corridor_density.1 = 1 := by rw [hd]
      have hr := hR s 1 configuration.reintroduced_corridor_density.2 (by omega)
      rw [if_pos (show (rand s 1 configuration.reintroduced_corridor_density.2).1 ≤
        configuration.reintroduced_corridor_density.1 by omega)]
      rw [ih, List.append_assoc, List.singleton_append]
    · simp only [if_neg hdiff]
      exact ih cs s

theorem residualLoop_mem {σ : Type} (rand : σ → Nat → Nat → Nat × σ)
    (configuration : Configuration) (doorways : List Doorway) (edges : List (Nat × Nat)) :
    ∀ (l : List Nat) (cs : List (Nat × Nat)) (s : σ) (e : Nat × Nat),
      e ∈ (residualLoop rand configuration doorways edges l cs s).1 →
      e ∈ cs ∨ differentRooms doorways e = true := by
  intro l
  induction l with
  | nil => intro cs s e he; exact Or.inl he
  | cons i rest ih =>
    intro cs s e he
    simp only [residualLoop] at he
    by_cases hdiff : differentRooms doorways (edges.getD i (0, 0)) = true
    · simp only [if_pos hdiff] at he
      split at he
      · rcases ih _ _ _ he with h | h
        · rcases List.mem_append.mp h with h2 | h2
          · exact Or.inl h2
          · rw [List.mem_singleton] at h2
            subst h2
            exact Or.inr hdiff
        · exact Or.inr h
      · exact ih _ _ _ he
    · simp only [if_neg hdiff] at he
      exact ih _ _ _ he

theorem kruskalLoop_sublist :
    ∀ (l : List (Nat × Nat)) (ds : DisjointSet) (i : Nat),
      List.Sublist (kruskalLoop ds i l) (List.range' i l.length) := by
  intro l
  induction l with
  | nil => intro ds i; simp [kruskalLoop]
  | cons e rest ih =>
    intro ds i
    rw [kruskalLoop, List.length_cons, List.range'_succ]
    split
    · exact (ih _ _).cons i
    · exact (ih _ _).cons₂ i

theorem residualScanAux_perm :
    ∀ (remaining i : Nat) (t : List Nat), List.Sublist t (List.range' i remaining) →
      List.Perm (t ++ residualScanAux remaining i t) (List.range' i remaining) := by
  intro remaining
  induction remaining with
  | zero =>
    intro i t ht
    have ht2 : t = [] := by
      rw [show List.range' i 0 = [] from rfl] at ht
      exact List.sublist_nil.mp ht
    subst ht2
    rfl
  | succ remaining ih =>
    intro i t ht
    rw [List.range'_succ] at ht ⊢
    cases t with
    | nil =>
      rw [residualScanAux, List.nil_append]
      exact (ih (i + 1) [] (List.nil_sublist _)).cons i
    | cons t0 rest =>
      rw [residualScanAux]
      by_cases hit : i = t0
      · rw [if_pos hit]
        subst hit
        have hrest : List.Sublist rest (List.range' (i + 1) remaining) := by
          cases ht with
          | cons _ h =>
            exfalso
            have : i ∈ List.range' (i + 1) remaining := h.subset (List.mem_cons_self i rest)
            rw [List.mem_range'_1] at this
            omega
          | cons₂ _ h => exact h
        rw [List.cons_append]
        exact ((ih (i + 1) rest hrest).cons i)
      · rw [if_neg hit]
        have hsub : List.Sublist (t0 :: rest) (List.range' (i + 1) remaining) := by
          cases ht with
          | cons _ h => exact h
          | cons₂ _ h => exact absurd rfl hit
        have hmid : List.Perm ((t0 :: rest) ++ i :: residualScanAux remaining (i + 1) (t0 :: rest))
            (i :: ((t0 :: rest) ++ residualScanAux remaining (i + 1) (t0 :: rest))) :=
          List.perm_middle
        exact hmid.trans ((ih (i + 1) (t0 :: rest) hsub).cons i)

theorem map_getD_range {α : Type} :
    ∀ (l : List α) (d : α), (List.range l.length).map (fun i => l.getD i d) = l := by
  intro l
  induction l with
  | nil => intro d; rfl
  | cons a t ih =>
    intro d
    rw [List.length_cons, List.range_succ_eq_map, List.map_cons, List.map_map]
    show (a :: t).getD 0 d :: _ = _
    rw [List.getD_cons_zero]
    congr 1
    rw [show ((fun i => (a :: t).getD i d) ∘ fun i => i + 1) = fun i => t.getD i d from ?_]
    · exact ih d
    · funext i
      simp [List.getD_cons_succ]

theorem insertSortedByKey_perm {α : Type} (key : α → Nat) (x : α) :
    ∀ (l : List α), List.Perm (insertSortedByKey key x l) (x :: l) := by
  intro l
  induction l with
  | nil => rfl
  | cons y ys ih =>
    rw [insertSortedByKey]
    split
    · rfl
    · exact (ih.cons y).trans (List.Perm.swap x y ys)

theorem sort_by_key_perm {α : Type} (key : α → Nat) :
    ∀ (l : List α), List.Perm (sort_by_key key l) l := by
  intro l
  induction l with
  | nil => rfl
  | cons a t ih =>
    rw [sort_by_key, List.foldr_cons]
    exact (insertSortedByKey_perm key a _).trans (ih.cons a)

/-- C2.  For every triangulation graph and in-range random source:
with reintroduced_corridor_density (0,1) pick_corridors returns exactly
the cross-room edges of the minimum spanning tree (in tree order); with
(1,1) it returns exactly (up to order) every cross-room input edge; and
for every configuration no edge of the output connects two doorways of the
same room. -/
theorem pick_corridors_spec {σ : Type} (rand : σ → Nat → Nat → Nat × σ)
    (hR : InRange rand) (g : RoomGraph) (s : σ) :
    (∀ cfg : Configuration, cfg.reintroduced_corridor_density = (0, 1) →
      (pick_corridors rand cfg g s).1.edges =
        ((minimum_spanning_tree doorwayPosition dfltDoorway g.doorways g.edges).1.map
          fun i => (minimum_spanning_tree doorwayPosition dfltDoorway g.doorways
            g.edges).2.getD i (0, 0)).filter (differentRooms g.doorways)) ∧
    (∀ cfg : Configuration, cfg.reintroduced_corridor_density = (1, 1) →
      List.Perm (pick_corridors rand cfg g s).1.edges
        (g.edges.filter (differentRooms g.doorways))) ∧
    (∀ cfg : Configuration, ∀ e ∈ (pick_corridors rand cfg g s).1.edges,
      differentRooms g.doorways e = true) := by
  have hfold : ∀ (tree : List Nat) (edges : List (Nat × Nat)),
      (tree.foldl (fun corridors edge_index =>
        let edge := edges.getD edge_index (0, 0)
        if differentRooms g.doorways edge then corridors ++ [edge] else corridors) []) =
        (tree.map fun i => edges.getD i (0, 0)).filter (differentRooms g.doorways) := by
    intro tree edges
    have := foldl_ite_append (differentRooms g.doorways)
      (fun i => edges.getD i (0, 0)) tree []
    simpa using this
  refine ⟨?_, ?_, ?_⟩
  · intro cfg hcfg
    simp only [pick_corridors]
    rw [residualLoop_none rand hR cfg (by rw [hcfg]) (by rw [hcfg])]
    exact hfold _ _
  · intro cfg hcfg
    simp only [pick_corridors]
    rw [residualLoop_all rand hR cfg hcfg, hfold]
    rw [← List.filter_append, ← List.map_append]
    have hperm1 : List.Perm
        ((minimum_spanning_tree doorwayPosition dfltDoorway g.doorways g.edges).1 ++
          residualScan (minimum_spanning_tree doorwayPosition dfltDoorway g.doorways
            g.edges).2.length
            (minimum_spanning_tree doorwayPosition dfltDoorway g.doorways g.edges).1)
        (List.range (minimum_spanning_tree doorwayPosition dfltDoorway g.doorways
          g.edges).2.length) := by
      rw [List.range_eq_range']
      exact residualScanAux_perm _ 0 _
        (by rw [← List.range_eq_range']
            exact (List.range_eq_range' _ ▸ kruskalLoop_sublist _ _ 0))
    have hperm2 := ((hperm1.map fun i =>
        (minimum_spanning_tree doorwayPosition dfltDoorway g.doorways g.edges).2.getD
          i (0, 0)).filter (differentRooms g.doorways))
    refine hperm2.trans ?_
    rw [map_getD_range]
    exact (sort_by_key_perm _ _).filter _
  · intro cfg e he
    simp only [pick_corridors] at he
    rcases residualLoop_mem rand cfg g.doorways _ _ _ _ e he with h | h
    · rw [hfold] at h
      exact List.of_mem_filter h
    · exact h

/-- Witness for C2: the four-room doorway square of the mst.rs tests with
the minimum-value random source; the three parts instantiate to the
(0,1), (1,1) and default configurations. -/
theorem pick_corridors_spec_witness :
    (pick_corridors (fun (_ : Unit) lo _ => (lo, ()))
        { defaultConfiguration with reintroduced_corridor_density := (0, 1) }
        ⟨[], [⟨1, ⟨1, 1⟩⟩, ⟨2, ⟨4, 1⟩⟩, ⟨3, ⟨1, 3⟩⟩, ⟨4, ⟨4, 3⟩⟩],
          [(0, 1), (0, 2), (1, 2), (1, 3), (2, 3)]⟩ ()).1.edges =
      ((minimum_spanning_tree doorwayPosition dfltDoorway
          [⟨1, ⟨1, 1⟩⟩, ⟨2, ⟨4, 1⟩⟩, ⟨3, ⟨1, 3⟩⟩, ⟨4, ⟨4, 3⟩⟩]
          [(0, 1), (0, 2), (1, 2), (1, 3), (2, 3)]).1.map
        fun i => (minimum_spanning_tree doorwayPosition dfltDoorway
          [⟨1, ⟨1, 1⟩⟩, ⟨2, ⟨4, 1⟩⟩, ⟨3, ⟨1, 3⟩⟩, ⟨4, ⟨4, 3⟩⟩]
          [(0, 1), (0, 2), (1, 2), (1, 3), (2, 3)]).2.getD i (0, 0)).filter
        (differentRooms [⟨1, ⟨1, 1⟩⟩, ⟨2, ⟨4, 1⟩⟩, ⟨3, ⟨1, 3⟩⟩, ⟨4, ⟨4, 3⟩⟩]) := by
  exact (pick_corridors_spec (fun (_ : Unit) lo _ => (lo, ()))
    (fun _ lo hi hle => ⟨Nat.le_refl lo, hle⟩)
    ⟨[], [⟨1, ⟨1, 1⟩⟩, ⟨2, ⟨4, 1⟩⟩, ⟨3, ⟨1, 3⟩⟩, ⟨4, ⟨4, 3⟩⟩],
      [(0, 1), (0, 2), (1, 2), (1, 3), (2, 3)]⟩ ()).1
    { defaultConfiguration with reintroduced_corridor_density := (0, 1) } rfl

/-! ### C6: Kruskal versus the Prim reference -/

/-- usize::MAX. -/
def usize_max : Nat := 2 ^ 64 - 1

/-- One next-vertex selection of the Prim reference (mst.rs test): the
not-yet-included vertex with the smallest tentative distance, earliest
index winning ties; vertex_count when none qualifies. -/
def primSelect (vertex_count : Nat) (in_tree : List Bool)
    (min_edge : List (Nat × Nat)) : Nat :=
  (List.range vertex_count).foldl (fun next vertex =>
    if ¬ in_tree.getD vertex false = true ∧
        (next = vertex_count ∨
          (min_edge.getD vertex (0, 0)).1 < (min_edge.getD next (0, 0)).1) then
      vertex
    else next) vertex_count

/-- The main loop of the Prim reference, one fuel unit per iteration (the
Rust loop runs exactly vertex_count times, breaking early when no vertex
remains reachable). -/
def primLoop (points : List V2) :
    Nat → List Bool → List (Nat × Nat) → List (Nat × Nat) → List (Nat × Nat)
  | 0, _, _, mst => mst
  | iter + 1, in_tree, min_edge, mst =>
    let vertex_count := points.length
    let next := primSelect vertex_count in_tree min_edge
    if next = vertex_count then mst
    else
      let in_tree2 := in_tree.set next true
      let mst2 :=
        if (min_edge.getD next (0, 0)).2 ≠ usize_max then
          mst ++ [make_edge next (min_edge.getD next (0, 0)).2]
        else mst
      let min_edge2 := (List.range vertex_count).foldl (fun me vertex =>
        let distance := ((points.getD next ⟨0, 0⟩ -
          points.getD vertex ⟨0, 0⟩).length_sqr).toNat
        if distance < (me.getD vertex (0, 0)).1 then me.set vertex (distance, next)
        else me) min_edge
      primLoop points iter in_tree2 min_edge2 mst2

/-- The Prim reference of the mst.rs test (minimum_spanning_tree_prim),
parameterized by the point set it randomly samples in the test: start from
vertex 0, grow the tree for vertex_count rounds, and finally sort the tree
edges by squared length as the test does. -/
def minimum_spanning_tree_prim (points : List V2) : List (Nat × Nat) :=
  let vertex_count := points.length
  let min_edge := (List.replicate vertex_count (usize_max, usize_max)).set 0 (0, usize_max)
  let mst := primLoop points vertex_count (List.replicate vertex_count false) min_edge []
  sort_by_key (edgeKey id ⟨0, 0⟩ points) mst

/-- Total weight of an edge list: sum of squared euclidean lengths. -/
def totalWeight (points : List V2) (edges : List (Nat × Nat)) : Nat :=
  (edges.map (edgeKey id ⟨0, 0⟩ points)).sum

/-- The edges selected by minimum_spanning_tree, as edges of the sorted
edge list. -/
def kruskalSelection (points : List V2) (edges : List (Nat × Nat)) : List (Nat × Nat) :=
  let mst := minimum_spanning_tree id ⟨0, 0⟩ points edges
  mst.1.map fun i => mst.2.getD i (0, 0)

/-- The complete ordered edge list the Prim reference test builds over n
points (all pairs, self loops included). -/
def completeEdges (n : Nat) : List (Nat × Nat) :=
  ((List.range n).map fun vertex => (List.range n).map fun previous =>
    (vertex, previous)).flatten

/-- Spec-side formalization of an edge list containing a spanning
connected subgraph over n points: minimum-label propagation (n rounds over
the edge list) ends with a single label. -/
def spanningConnected (n : Nat) (edges : List (Nat × Nat)) : Bool :=
  let step := fun (ls : List Nat) => edges.foldl (fun ls e =>
    let la := ls.getD e.1 0
    let lb := ls.getD e.2 0
    let m := Nat.min la lb
    (ls.set e.1 m).set e.2 m) ls
  let final := (List.range n).foldl (fun ls _ => step ls) (List.range n)
  final.all fun l => l = final.getD 0 0

/-- The three collinear points of the C6 counterexample. -/
def c6Points : List V2 := [⟨0, 0⟩, ⟨1, 0⟩, ⟨2, 0⟩]

/-- C6 (counterexample to the claim as stated).  The edge list
[(0,2),(1,2)] over three collinear points is spanning and connected, yet
Kruskal restricted to it selects weight 4+1 = 5 while the Prim reference,
which always works on the complete graph over the same points, returns
weight 1+1 = 2. -/
theorem c6_counterexample :
    spanningConnected 3 [(0, 2), (1, 2)] = true ∧
    totalWeight c6Points (kruskalSelection c6Points [(0, 2), (1, 2)]) = 5 ∧
    totalWeight c6Points (minimum_spanning_tree_prim c6Points) = 2 ∧
    ¬ totalWeight c6Points (kruskalSelection c6Points [(0, 2), (1, 2)]) =
        totalWeight c6Points (minimum_spanning_tree_prim c6Points) := by
  decide

/-- C6 (amended).  When Kruskal runs on the same complete edge list the
Prim reference uses, the two total weights agree; verified on explicit
point sets of sizes 3, 5 and 7 (the general complete-graph equality is the
classical MST theorem and is not formalized here; the original claim is
false for arbitrary spanning-connected edge lists because the Prim
reference always runs on the complete graph). -/
theorem kruskal_prim_weights_on_complete_graphs :
    totalWeight [⟨1, 1⟩, ⟨4, 1⟩, ⟨1, 3⟩]
        (kruskalSelection [⟨1, 1⟩, ⟨4, 1⟩, ⟨1, 3⟩] (completeEdges 3)) =
      totalWeight [⟨1, 1⟩, ⟨4, 1⟩, ⟨1, 3⟩]
        (minimum_spanning_tree_prim [⟨1, 1⟩, ⟨4, 1⟩, ⟨1, 3⟩]) ∧
    totalWeight [⟨0, 0⟩, ⟨7, 2⟩, ⟨3, 9⟩, ⟨10, 5⟩, ⟨6, 6⟩]
        (kruskalSelection [⟨0, 0⟩, ⟨7, 2⟩, ⟨3, 9⟩, ⟨10, 5⟩, ⟨6, 6⟩] (completeEdges 5)) =
      totalWeight [⟨0, 0⟩, ⟨7, 2⟩, ⟨3, 9⟩, ⟨10, 5⟩, ⟨6, 6⟩]
        (minimum_spanning_tree_prim [⟨0, 0⟩, ⟨7, 2⟩, ⟨3, 9⟩, ⟨10, 5⟩, ⟨6, 6⟩]) ∧
    totalWeight [⟨0, 0⟩, ⟨7, 2⟩, ⟨3, 9⟩, ⟨10, 5⟩, ⟨6, 6⟩, ⟨2, 4⟩, ⟨8, 8⟩]
        (kruskalSelection [⟨0, 0⟩, ⟨7, 2⟩, ⟨3, 9⟩, ⟨10, 5⟩, ⟨6, 6⟩, ⟨2, 4⟩, ⟨8, 8⟩]
          (completeEdges 7)) =
      totalWeight [⟨0, 0⟩, ⟨7, 2⟩, ⟨3, 9⟩, ⟨10, 5⟩, ⟨6, 6⟩, ⟨2, 4⟩, ⟨8, 8⟩]
        (minimum_spanning_tree_prim
          [⟨0, 0⟩, ⟨7, 2⟩, ⟨3, 9⟩, ⟨10, 5⟩, ⟨6, 6⟩, ⟨2, 4⟩, ⟨8, 8⟩]) := by
  refine ⟨by decide, by decide, by decide⟩

/-! ### binary_heap.rs: 1-indexed array-backed min-heap (keys, payloads) -/

/-- binary_heap.rs Heap<usize, usize> (the only instantiation used).  The
slot at index 0 is a dummy so that parent/child arithmetic is 1-based. -/
structure Heap where
  keys : List Nat
  aux : List Nat
  len : Nat
deriving DecidableEq, Repr

/-- Heap::with_capacity (capacity only preallocates in Rust). -/
def Heap.with_capacity (_capacity : Nat) : Heap := ⟨[0], [0], 0⟩

/-- Vec-level swap of two (in-bounds) positions. -/
def swapList (l : List Nat) (a b : Nat) : List Nat :=
  (l.set a (l.getD b 0)).set b (l.getD a 0)

/-- Heap::swap: swap both the key and the payload slots. -/
def Heap.swap (h : Heap) (a b : Nat) : Heap :=
  ⟨swapList h.keys a b, swapList h.aux a b, h.len⟩

/-- Heap::ascend (sift-up), one unit of fuel per iteration: the index at
least halves each time, so index+1 units always suffice. -/
def ascendAux : Nat → Heap → Nat → Heap
  | 0, h, _ => h
  | fuel + 1, h, index =>
    let parent := index / 2
    if 0 < parent then
      if h.keys.getD index 0 < h.keys.getD parent 0 then
        ascendAux fuel (h.swap index parent) parent
      else h
    else h

/-- Heap::ascend. -/
def Heap.ascend (h : Heap) (index : Nat) : Heap := ascendAux (index + 1) h index

/-- Heap::descend (sift-down), one unit of fuel per iteration: the index
at least doubles while staying below keys.length, so keys.length+1 units
always suffice. -/
def descendAux : Nat → Heap → Nat → Heap
  | 0, h, _ => h
  | fuel + 1, h, index =>
    let left_child := index * 2
    if left_child < h.keys.length then
      let right_child := left_child + 1
      let min_child :=
        if right_child < h.keys.length ∧
            h.keys.getD right_child 0 < h.keys.getD left_child 0 then right_child
        else left_child
      if h.keys.getD index 0 ≤ h.keys.getD min_child 0 then h
      else descendAux fuel (h.swap index min_child) min_child
    else h

/-- Heap::descend. -/
def Heap.descend (h : Heap) (index : Nat) : Heap := descendAux (h.keys.length + 1) h index

/-- Heap::insert: push at the end, sift up, bump len. -/
def Heap.insert (h : Heap) (key aux_value : Nat) : Heap :=
  let new_index := h.keys.length
  let h2 : Heap := ⟨h.keys ++ [key], h.aux ++ [aux_value], h.len⟩
  let h3 := h2.ascend new_index
  { h3 with len := h3.len + 1 }

/-- Heap::extract_min: take the root pair, swap_remove slot 1 in both
arrays, sift down from the root, decrement len. -/
def Heap.extract_min (h : Heap) : Option ((Nat × Nat) × Heap) :=
  if h.len = 0 then none
  else
    let result := (h.keys.getD 1 0, h.aux.getD 1 0)
    let h2 : Heap := ⟨swapRemove h.keys 1 0, swapRemove h.aux 1 0, h.len⟩
    let h3 := h2.descend 1
    some (result, { h3 with len := h3.len - 1 })

/-! ### a_star.rs -/

/-- a_star.rs diff: absolute difference of two usizes. -/
def diff (a b : Nat) : Nat := if a < b then b - a else a - b

/-- a_star.rs manhattan over row-major indices. -/
def manhattan (width a b : Nat) : Nat :=
  diff (a / width) (b / width) + diff (a % width) (b % width)

/-- a_star.rs make_square: do the four indices, sorted, form a 2x2 block? -/
def make_square (width n1 n2 n3 n4 : Nat) : Bool :=
  let nodes := sort_by_key id [n1, n2, n3, n4]
  decide (nodes.getD 0 0 + 1 = nodes.getD 1 0) &&
  decide (nodes.getD 0 0 + width = nodes.getD 2 0) &&
  decide (nodes.getD 0 0 + width + 1 = nodes.getD 3 0)

/-- usize::MAX / 2, the effective infinity of the g-score array. -/
def infGScore : Nat := usize_max / 2

/-- The neighbor relaxation of a_star.rs for one neighbor index: skip
blockers/rooms, the corridor-neighbor rule and the 2x2-square rule, then
relax the g-score through the current cell if it improves. -/
def relaxNeighbor (corridor_cost straight_cost standard_cost min_cost end_ width : Nat)
    (tiles : List Tile) (current : Nat) (st : Heap × List Nat × List Nat)
    (neighbor : Nat) : Heap × List Nat × List Nat :=
  let open_set := st.1
  let g_scores := st.2.1
  let parent := st.2.2
  let t := tiles.getD neighbor Tile.Blocker
  if t = Tile.Blocker ∨ t = Tile.Room then st
  else if tiles.getD current Tile.Blocker = Tile.CorridorNeighbor ∧
      t = Tile.CorridorNeighbor then st
  else if make_square width neighbor current (parent.getD current 0)
      (parent.getD (parent.getD current 0) 0) then st
  else
    let cost :=
      if t = Tile.Corridor then corridor_cost
      else if diff current (parent.getD current 0) = diff neighbor current then
        straight_cost
      else standard_cost
    let tentative_g_score := g_scores.getD current 0 + cost
    if tentative_g_score < g_scores.getD neighbor 0 then
      (open_set.insert (tentative_g_score + manhattan width neighbor end_ * min_cost)
        neighbor,
       g_scores.set neighbor tentative_g_score,
       parent.set neighbor current)
    else st

/-- The parent-pointer walk of a_star.rs that materializes the path from
the end cell back to the start.  One unit of fuel per step; the g-score of
the end cell plus one suffices, because the g-score strictly decreases
along the parent chain (see the invariants below). -/
def rebuildPath : Nat → List Nat → Nat → List Nat
  | 0, _, current => [current]
  | fuel + 1, parent, current =>
    if parent.getD current current = current then [current]
    else current :: rebuildPath fuel parent (parent.getD current current)

/-- The main loop of a_star.rs, one unit of fuel per iteration.  Every
iteration removes a heap entry and performs k inserts only together with k
strict g-score decreases, so the measure 2*(sum of g-scores)+heap len
strictly decreases and the fuel chosen by a_star (that measure plus one)
is never exhausted. -/
def aStarLoop (corridor_cost straight_cost standard_cost min_cost end_ width : Nat)
    (tiles : List Tile) :
    Nat → Heap → List Nat → List Nat → List Nat
  | 0, _, _, _ => []
  | fuel + 1, open_set, g_scores, parent =>
    match open_set.extract_min with
    | none => []
    | some ((f_cost, current), open2) =>
      let g_cost := f_cost - manhattan width current end_ * min_cost
      if g_scores.getD current 0 < g_cost then
        aStarLoop corridor_cost straight_cost standard_cost min_cost end_ width tiles
          fuel open2 g_scores parent
      else if current = end_ then
        rebuildPath (g_scores.getD current 0 + 1) parent current
      else
        let st := [current + width, current - width, current + 1, current - 1].foldl
          (relaxNeighbor corridor_cost straight_cost standard_cost min_cost end_ width
            tiles current)
          (open2, g_scores, parent)
        aStarLoop corridor_cost straight_cost standard_cost min_cost end_ width tiles
          fuel st.1 st.2.1 st.2.2

/-- a_star.rs a_star.  The output path is the only result (the tile slice
is borrowed immutably in Rust, so a_star cannot modify it; the embedding
is accordingly a pure function of the tiles).  The caller-provided scratch
buffers of the Rust signature are reinitialized on entry there and are
therefore modelled as locals. -/
def a_star (configuration : Configuration) (start end_ width : Nat)
    (tiles : List Tile) : List Nat :=
  let corridor_cost := configuration.corridor_cost
  let straight_cost := configuration.straight_cost
  let standard_cost := configuration.standard_cost
  let min_cost := Nat.min (Nat.min corridor_cost straight_cost) standard_cost
  let g_scores := (List.replicate tiles.length infGScore).set start 0
  let parent := List.range tiles.length
  let open_set := (Heap.with_capacity (tiles.length / 4)).insert
    (manhattan width start end_ * min_cost) start
  aStarLoop corridor_cost straight_cost standard_cost min_cost end_ width tiles
    (2 * g_scores.sum + open_set.len + 1) open_set g_scores parent

/-! ### grid.rs: rasterization, corridor placement, make_grid -/

/-- The helper of grid.rs place_corridor: convert one neighbor tile
(corridor turn -> Blocker, Wall -> CorridorNeighbor, Room -> Doorway). -/
def place_corridor_neighbor (index : Nat) (tiles : List Tile) : List Tile :=
  match tiles.getD index Tile.Blocker with
  | Tile.CorridorNeighbor => tiles.set index Tile.Blocker
  | Tile.Wall => tiles.set index Tile.CorridorNeighbor
  | Tile.Room => tiles.set index Tile.Doorway
  | _ => tiles

/-- grid.rs place_corridor: walk the path, mark the four neighbors of each
fresh corridor cell (east, west, south, north in that order) and turn the
cell itself into a corridor unless it is a doorway. -/
def place_corridor (width : Nat) (tiles : List Tile) (path : List Nat) : List Tile :=
  path.foldl (fun tiles current =>
    let tiles2 :=
      if tiles.getD current Tile.Blocker ≠ Tile.Corridor then
        place_corridor_neighbor (current - width)
          (place_corridor_neighbor (current + width)
            (place_corridor_neighbor (current - 1)
              (place_corridor_neighbor (current + 1) tiles)))
      else tiles
    if tiles2.getD current Tile.Blocker ≠ Tile.Doorway then
      tiles2.set current Tile.Corridor
    else tiles2) tiles

/-- grid.rs try_place_corridors: mark the two doorway cells of every edge,
run A* between them, abort with false on an empty path (leaving the tiles
as mutated so far), otherwise stamp the corridor and continue. -/
def try_place_corridors (configuration : Configuration) (dungeon : Rooms)
    (width : Nat) : List (Nat × Nat) → List Tile → Bool × List Tile
  | [], tiles => (true, tiles)
  | edge :: rest, tiles =>
    let position_a := to_index (dungeon.doorways.getD edge.1 dfltDoorway).position width
    let position_b := to_index (dungeon.doorways.getD edge.2 dfltDoorway).position width
    let tiles2 := (tiles.set position_a Tile.Doorway).set position_b Tile.Doorway
    let path := a_star configuration position_a position_b width tiles2
    if path = [] then (false, tiles2)
    else try_place_corridors configuration dungeon width rest
      (place_corridor width tiles2 path)

/-- The room rasterization of make_grid: room interior, then the one-cell
Blocker ring just outside it. -/
def rasterizeRoom (grid_width : Nat) (tiles : List Tile) (room : Room) : List Tile :=
  let top_left_corner := room.bounds.x + room.bounds.y * grid_width
  let room_width := room.bounds.width
  let room_height := room.bounds.height
  let tiles := (List.range room_height).foldl (fun tiles row =>
    (List.range room_width).foldl (fun tiles column =>
      tiles.set (top_left_corner + row * grid_width + column) Tile.Room) tiles) tiles
  let top_left_corner2 := top_left_corner - grid_width - 1
  let tiles := (List.range (room_width + 2)).foldl (fun tiles column =>
    (tiles.set (top_left_corner2 + column) Tile.Blocker).set
      (top_left_corner2 + column + grid_width * (room_height + 1)) Tile.Blocker) tiles
  (List.range (room_height + 2)).foldl (fun tiles row =>
    (tiles.set (top_left_corner2 + row * grid_width) Tile.Blocker).set
      (top_left_corner2 + row * grid_width + room_width + 1) Tile.Blocker) tiles

/-- The base grid of make_grid before any carving: all Wall, the outer
Blocker ring, then every room with its Blocker margin. -/
def rasterizeBase (grid_width grid_height : Nat) (rooms : List Room) : List Tile :=
  let tiles := List.replicate (grid_width * grid_height) Tile.Wall
  let tiles := (List.range grid_width).foldl (fun tiles column =>
    (tiles.set column Tile.Blocker).set (column + grid_width * (grid_height - 1))
      Tile.Blocker) tiles
  let tiles := (List.range grid_height).foldl (fun tiles row =>
    (tiles.set (row * grid_width) Tile.Blocker).set
      (row * grid_width + grid_width - 1) Tile.Blocker) tiles
  rooms.foldl (rasterizeRoom grid_width) tiles

/-- grid.rs make_grid: rasterize, attempt the carving pass on a clone of
the base tiles with the given configuration, and on failure redo the whole
pass on the untouched base tiles with the default configuration, returning
whatever that second pass produces. -/
def make_grid (configuration : Configuration) (grid_dimensions : Nat × Nat)
    (dungeon : Rooms) (corridors : List (Nat × Nat)) : Grid :=
  let grid_width := grid_dimensions.1
  let grid_height := grid_dimensions.2
  let tiles := rasterizeBase grid_width grid_height dungeon.rooms
  let attempt := try_place_corridors configuration dungeon grid_width corridors tiles
  if attempt.1 then ⟨grid_width, attempt.2⟩
  else
    ⟨grid_width,
      (try_place_corridors defaultConfiguration dungeon grid_width corridors tiles).2⟩

/-! ### C3: the carving retry discards the failed pass -/

/-- C3.  If the first carving pass fails (A* returns an empty path for
some corridor edge), make_grid returns the grid produced by re-running the
whole pass with the default configuration on the freshly rasterized base
tiles: no tile modification of the failed pass survives, and if the second
pass fails as well, its partially carved tiles are returned as-is (the
equation holds whatever the second pass reports). -/
theorem make_grid_retry (configuration : Configuration) (grid_dimensions : Nat × Nat)
    (dungeon : Rooms) (corridors : List (Nat × Nat))
    (hfail : (try_place_corridors configuration dungeon grid_dimensions.1 corridors
      (rasterizeBase grid_dimensions.1 grid_dimensions.2 dungeon.rooms)).1 = false) :
    make_grid configuration grid_dimensions dungeon corridors =
      ⟨grid_dimensions.1,
        (try_place_corridors defaultConfiguration dungeon grid_dimensions.1 corridors
          (rasterizeBase grid_dimensions.1 grid_dimensions.2 dungeon.rooms)).2⟩ := by
  simp only [make_grid]
  rw [if_neg (by rw [hfail]; exact Bool.false_ne_true)]

/-- A dungeon whose first doorway is sealed inside the room Blocker ring
corner, so that both carving passes fail on the edge (0,1). -/
def c3Dungeon : Rooms := ⟨[⟨⟨2, 2, 5, 5⟩⟩], [⟨0, ⟨1, 1⟩⟩, ⟨0, ⟨9, 5⟩⟩]⟩

/-- Witness for C3: on an 11x11 grid with the sealed doorway the first
pass fails and make_grid returns the default-configuration retry. -/
theorem make_grid_retry_witness :
    make_grid defaultConfiguration (11, 11) c3Dungeon [(0, 1)] =
      ⟨11, (try_place_corridors defaultConfiguration c3Dungeon 11 [(0, 1)]
        (rasterizeBase 11 11 c3Dungeon.rooms)).2⟩ :=
  make_grid_retry defaultConfiguration (11, 11) c3Dungeon [(0, 1)] (by decide)

/-! ### C8: what an empty or non-empty A* result guarantees -/

/-- One step of a rules-respecting walk (the carving rules of a_star.rs
expressed over an explicit move sequence, with the walk history playing the
role of the parent chain): moves are 4-adjacent, never enter Blocker or
Room tiles, never go from CorridorNeighbor to CorridorNeighbor, and never
complete a 2x2 square with the two preceding cells. -/
def walkOk (tiles : List Tile) (width : Nat) : Nat → Nat → Nat → List Nat → Bool
  | _, _, _, [] => true
  | cur, p1, p2, nxt :: rest =>
    decide (manhattan width cur nxt = 1) &&
    !(decide (tiles.getD nxt Tile.Blocker = Tile.Blocker) ||
      decide (tiles.getD nxt Tile.Blocker = Tile.Room)) &&
    !(decide (tiles.getD cur Tile.Blocker = Tile.CorridorNeighbor) &&
      decide (tiles.getD nxt Tile.Blocker = Tile.CorridorNeighbor)) &&
    !(make_square width nxt cur p1 p2) &&
    walkOk tiles width nxt cur p1 rest

/-- A rules-respecting sequence of moves from start to end (the claim's
notion of an existing path; the two virtual predecessors of the start are
the start itself, as in the initialized parent array). -/
def ValidWalk (tiles : List Tile) (width start end_ : Nat) (w : List Nat) : Bool :=
  match w with
  | [] => false
  | s :: rest =>
    decide (s = start) && decide (w.getLast? = some end_) &&
    walkOk tiles width s s s rest

/-- The 5x4 grid of the C8 counterexample:
row 1 holds Wall, Doorway, Wall and row 2 holds Wall, CorridorNeighbor,
CorridorNeighbor between the Blocker border. -/
def c8Tiles : List Tile :=
  [.Blocker, .Blocker, .Blocker, .Blocker, .Blocker,
   .Blocker, .Wall, .Doorway, .Wall, .Blocker,
   .Blocker, .Wall, .CorridorNeighbor, .CorridorNeighbor, .Blocker,
   .Blocker, .Blocker, .Blocker, .Blocker, .Blocker]

/-- C8 (counterexample to the claim as stated).  On c8Tiles with the
default costs, a rules-respecting walk 11-6-7-8-13 from cell 11 to cell 13
exists (border Blocker, both endpoints in-bounds non-Blocker), yet a_star
returns the empty path: the search reaches cell 7 through the cheaper
corridor-neighbor cell 12 first, records 12 as its parent, and the
2x2-square rule then prunes the last move, while the alternative route
through cell 6 is discarded by the g-score dominance test.  An empty path
therefore does not imply that no rules-respecting move sequence exists. -/
theorem c8_counterexample :
    a_star defaultConfiguration 11 13 5 c8Tiles = [] ∧
    ValidWalk c8Tiles 5 11 13 [11, 6, 7, 8, 13] = true ∧
    c8Tiles.getD 11 Tile.Blocker ≠ Tile.Blocker ∧
    c8Tiles.getD 13 Tile.Blocker ≠ Tile.Blocker ∧
    (∀ i < c8Tiles.length, (i % 5 = 0 ∨ i % 5 = 4 ∨ i / 5 = 0 ∨ i / 5 = 3) →
      c8Tiles.getD i Tile.Blocker = Tile.Blocker) := by
  decide

/-! #### C8 amended direction: helper lemmas about getD and list membership -/

/-- getD at an in-bounds index does not depend on the default. -/
theorem getD_congr {l : List Nat} (d d' : Nat) {c : Nat} (h : c < l.length) :
    l.getD c d = l.getD c d' := by
  rw [List.getD_eq_getElem l d h, List.getD_eq_getElem l d' h]

/-- getD after set at the written index. -/
theorem getD_set_self {l : List Nat} {i : Nat} (a d : Nat) (h : i < l.length) :
    (l.set i a).getD i d = a := by
  rw [List.getD_eq_getElem _ _ (by simpa using h)]
  exact List.getElem_set_self _

/-- getD after set at any other index. -/
theorem getD_set_ne {l : List Nat} {i : Nat} (a d : Nat) {j : Nat} (hne : i ≠ j) :
    (l.set i a).getD j d = l.getD j d := by
  rcases Nat.lt_or_ge j l.length with hj | hj
  · rw [List.getD_eq_getElem _ _ (by simpa using hj), List.getD_eq_getElem _ _ hj]
    exact List.getElem_set_ne hne _
  · rw [List.getD_eq_default _ _ (by simpa using hj), List.getD_eq_default _ _ hj]

/-- getD is unchanged by dropLast below the last index. -/
theorem getD_dropLast {l : List Nat} {j : Nat} (d : Nat) (h : j < l.length - 1) :
    l.dropLast.getD j d = l.getD j d := by
  rw [List.getD_eq_getElem _ _ (by simp; omega), List.getD_eq_getElem _ _ (by omega)]
  exact List.getElem_dropLast ..

/-- Membership in the tail of a list (positions 1 and up), phrased with getD
so that indices can be rewritten freely. -/
theorem mem_drop_iff {l : List Nat} {x : Nat} :
    x ∈ l.drop 1 ↔ ∃ j, 1 ≤ j ∧ j < l.length ∧ l.getD j 0 = x := by
  rw [List.mem_iff_getElem]
  constructor
  · rintro ⟨i, hi, he⟩
    have h2 : 1 + i < l.length := by simp at hi; omega
    refine ⟨1 + i, by omega, h2, ?_⟩
    rw [List.getD_eq_getElem _ _ h2, ← he, List.getElem_drop]
  · rintro ⟨j, hj1, hjl, he⟩
    have h2 : j - 1 < (l.drop 1).length := by simp; omega
    refine ⟨j - 1, h2, ?_⟩
    rw [List.getElem_drop]
    have h3 : 1 + (j - 1) = j := by omega
    rw [← List.getD_eq_getElem _ 0, h3, he]

/-! #### C8: the heap only moves payload values around above position 0 -/

/-- swapList preserves the length. -/
theorem swapList_length (l : List Nat) (a b : Nat) : (swapList l a b).length = l.length := by
  simp [swapList]

/-- swapRemove removes exactly one slot. -/
theorem swapRemove_length {α : Type} (l : List α) (i : Nat) (d : α) :
    (swapRemove l i d).length = l.length - 1 := by
  simp [swapRemove]

/-- Swapping two in-bounds positions at index 1 or above keeps every tail
element in the tail. -/
theorem swapList_mem {l : List Nat} {a b x : Nat} (ha1 : 1 ≤ a) (hb1 : 1 ≤ b)
    (ha : a < l.length) (hb : b < l.length) (hx : x ∈ (swapList l a b).drop 1) :
    x ∈ l.drop 1 := by
  rw [mem_drop_iff] at hx ⊢
  obtain ⟨j, hj1, hjl, he⟩ := hx
  rw [swapList_length] at hjl
  rw [swapList] at he
  by_cases hbj : b = j
  · subst hbj
    rw [getD_set_self _ _ (by simpa using hb)] at he
    exact ⟨a, ha1, ha, he⟩
  · rw [getD_set_ne _ _ hbj] at he
    by_cases haj : a = j
    · subst haj
      rw [getD_set_self _ _ ha] at he
      exact ⟨b, hb1, hb, he⟩
    · rw [getD_set_ne _ _ haj] at he
      exact ⟨j, hj1, hjl, he⟩

/-- ascend preserves the lengths and the len counter. -/
theorem ascendAux_lengths : ∀ (fuel : Nat) (hp : Heap) (i : Nat),
    (ascendAux fuel hp i).keys.length = hp.keys.length ∧
    (ascendAux fuel hp i).aux.length = hp.aux.length ∧
    (ascendAux fuel hp i).len = hp.len := by
  intro fuel
  induction fuel with
  | zero => intro hp i; exact ⟨rfl, rfl, rfl⟩
  | succ f ih =>
    intro hp i
    simp only [ascendAux]
    by_cases hp0 : 0 < i / 2
    · rw [if_pos hp0]
      by_cases hlt : hp.keys.getD i 0 < hp.keys.getD (i / 2) 0
      · rw [if_pos hlt]
        obtain ⟨h1, h2, h3⟩ := ih (hp.swap i (i / 2)) (i / 2)
        refine ⟨?_, ?_, ?_⟩
        · rw [h1]; simp [Heap.swap, swapList_length]
        · rw [h2]; simp [Heap.swap, swapList_length]
        · rw [h3]; rfl
      · rw [if_neg hlt]; exact ⟨rfl, rfl, rfl⟩
    · rw [if_neg hp0]; exact ⟨rfl, rfl, rfl⟩

/-- ascend can only permute the payload tail: every tail element of the
result was a tail element before. -/
theorem ascendAux_mem : ∀ (fuel : Nat) (hp : Heap) (i : Nat), 1 ≤ i →
    i < hp.keys.length → hp.keys.length = hp.aux.length →
    ∀ x ∈ (ascendAux fuel hp i).aux.drop 1, x ∈ hp.aux.drop 1 := by
  intro fuel
  induction fuel with
  | zero => intro hp i _ _ _ x hx; exact hx
  | succ f ih =>
    intro hp i hi1 hil hkeq x hx
    simp only [ascendAux] at hx
    by_cases hp0 : 0 < i / 2
    · rw [if_pos hp0] at hx
      by_cases hlt : hp.keys.getD i 0 < hp.keys.getD (i / 2) 0
      · rw [if_pos hlt] at hx
        have hd2 : i / 2 < hp.keys.length := Nat.lt_of_le_of_lt (Nat.div_le_self i 2) hil
        have hmem := ih (hp.swap i (i / 2)) (i / 2) hp0
          (by simpa [Heap.swap, swapList_length] using hd2)
          (by simp [Heap.swap, swapList_length, hkeq]) x hx
        exact swapList_mem hi1 hp0 (hkeq ▸ hil) (hkeq ▸ hd2) hmem
      · rw [if_neg hlt] at hx; exact hx
    · rw [if_neg hp0] at hx; exact hx

/-- descend preserves the lengths and the len counter. -/
theorem descendAux_lengths : ∀ (fuel : Nat) (hp : Heap) (i : Nat),
    (descendAux fuel hp i).keys.length = hp.keys.length ∧
    (descendAux fuel hp i).aux.length = hp.aux.length ∧
    (descendAux fuel hp i).len = hp.len := by
  intro fuel
  induction fuel with
  | zero => intro hp i; exact ⟨rfl, rfl, rfl⟩
  | succ f ih =>
    intro hp i
    simp only [descendAux]
    by_cases hc : i * 2 + 1 < hp.keys.length ∧
        hp.keys.getD (i * 2 + 1) 0 < hp.keys.getD (i * 2) 0
    · simp only [if_pos hc]
      by_cases h1 : i * 2 < hp.keys.length
      · rw [if_pos h1]
        by_cases hle : hp.keys.getD i 0 ≤ hp.keys.getD (i * 2 + 1) 0
        · rw [if_pos hle]; exact ⟨rfl, rfl, rfl⟩
        · rw [if_neg hle]
          obtain ⟨e1, e2, e3⟩ := ih (hp.swap i (i * 2 + 1)) (i * 2 + 1)
          refine ⟨?_, ?_, ?_⟩
          · rw [e1]; simp [Heap.swap, swapList_length]
          · rw [e2]; simp [Heap.swap, swapList_length]
          · rw [e3]; rfl
      · rw [if_neg h1]; exact ⟨rfl, rfl, rfl⟩
    · simp only [if_neg hc]
      by_cases h1 : i * 2 < hp.keys.length
      · rw [if_pos h1]
        by_cases hle : hp.keys.getD i 0 ≤ hp.keys.getD (i * 2) 0
        · rw [if_pos hle]; exact ⟨rfl, rfl, rfl⟩
        · rw [if_neg hle]
          obtain ⟨e1, e2, e3⟩ := ih (hp.swap i (i * 2)) (i * 2)
          refine ⟨?_, ?_, ?_⟩
          · rw [e1]; simp [Heap.swap, swapList_length]
          · rw [e2]; simp [Heap.swap, swapList_length]
          · rw [e3]; rfl
      · rw [if_neg h1]; exact ⟨rfl, rfl, rfl⟩

/-- descend can only permute the payload tail: every tail element of the
result was a tail element before. -/
theorem descendAux_mem : ∀ (fuel : Nat) (hp : Heap) (i : Nat), 1 ≤ i →
    hp.keys.length = hp.aux.length →
    ∀ x ∈ (descendAux fuel hp i).aux.drop 1, x ∈ hp.aux.drop 1 := by
  intro fuel
  induction fuel with
  | zero => intro hp i _ _ x hx; exact hx
  | succ f ih =>
    intro hp i hi1 hkeq x hx
    simp only [descendAux] at hx
    by_cases hc : i * 2 + 1 < hp.keys.length ∧
        hp.keys.getD (i * 2 + 1) 0 < hp.keys.getD (i * 2) 0
    · simp only [if_pos hc] at hx
      by_cases h1 : i * 2 < hp.keys.length
      · rw [if_pos h1] at hx
        by_cases hle : hp.keys.getD i 0 ≤ hp.keys.getD (i * 2 + 1) 0
        · rw [if_pos hle] at hx; exact hx
        · rw [if_neg hle] at hx
          have hil : i < hp.keys.length := by omega
          have hmem := ih (hp.swap i (i * 2 + 1)) (i * 2 + 1) (by omega)
            (by simp [Heap.swap, swapList_length, hkeq]) x hx
          exact swapList_mem hi1 (by omega) (hkeq ▸ hil) (hkeq ▸ hc.1) hmem
      · rw [if_neg h1] at hx; exact hx
    · simp only [if_neg hc] at hx
      by_cases h1 : i * 2 < hp.keys.length
      · rw [if_pos h1] at hx
        by_cases hle : hp.keys.getD i 0 ≤ hp.keys.getD (i * 2) 0
        · rw [if_pos hle] at hx; exact hx
        · rw [if_neg hle] at hx
          have hil : i < hp.keys.length := by omega
          have hmem := ih (hp.swap i (i * 2)) (i * 2) (by omega)
            (by simp [Heap.swap, swapList_length, hkeq]) x hx
          exact swapList_mem hi1 (by omega) (hkeq ▸ hil) (hkeq ▸ h1) hmem
      · rw [if_neg h1] at hx; exact hx

/-- insert grows both arrays and the counter by one. -/
theorem insert_lengths (hp : Heap) (k v : Nat) :
    (hp.insert k v).keys.length = hp.keys.length + 1 ∧
    (hp.insert k v).aux.length = hp.aux.length + 1 ∧
    (hp.insert k v).len = hp.len + 1 := by
  simp only [Heap.insert, Heap.ascend]
  obtain ⟨h1, h2, h3⟩ := ascendAux_lengths (hp.keys.length + 1)
    ⟨hp.keys ++ [k], hp.aux ++ [v], hp.len⟩ hp.keys.length
  exact ⟨by rw [h1]; simp, by rw [h2]; simp, by rw [h3]⟩

/-- Every payload in the tail after an insert is the inserted value or an
old tail payload. -/
theorem insert_mem (hp : Heap) (k v : Nat) (hkeq : hp.keys.length = hp.aux.length)
    (hpos : 1 ≤ hp.keys.length) :
    ∀ x ∈ (hp.insert k v).aux.drop 1, x = v ∨ x ∈ hp.aux.drop 1 := by
  intro x hx
  simp only [Heap.insert, Heap.ascend] at hx
  have hmem := ascendAux_mem (hp.keys.length + 1) ⟨hp.keys ++ [k], hp.aux ++ [v], hp.len⟩
    hp.keys.length hpos (by simp) (by simp [hkeq]) x hx
  have haux : (⟨hp.keys ++ [k], hp.aux ++ [v], hp.len⟩ : Heap).aux = hp.aux ++ [v] := rfl
  rw [haux, List.drop_append_of_le_length (by omega : 1 ≤ hp.aux.length)] at hmem
  rcases List.mem_append.mp hmem with h | h
  · exact Or.inr h
  · simp at h; exact Or.inl h

/-- swapRemove at slot 1 keeps every remaining tail payload a tail payload. -/
theorem swapRemove_mem {l : List Nat} (h2 : 2 ≤ l.length) :
    ∀ x ∈ (swapRemove l 1 0).drop 1, x ∈ l.drop 1 := by
  intro x hx
  rw [mem_drop_iff] at hx ⊢
  obtain ⟨j, hj1, hjl, he⟩ := hx
  rw [swapRemove_length] at hjl
  rw [swapRemove, getD_dropLast _ (by simp; omega)] at he
  by_cases hje : (1 : Nat) = j
  · rw [← hje] at hjl he hj1
    rw [getD_set_self _ _ (by omega)] at he
    exact ⟨l.length - 1, by omega, by omega, he⟩
  · rw [getD_set_ne _ _ hje] at he
    exact ⟨j, hj1, by omega, he⟩

/-- Heap.descend preserves the lengths and the len counter. -/
theorem descend_lengths (hp : Heap) (i : Nat) :
    (hp.descend i).keys.length = hp.keys.length ∧
    (hp.descend i).aux.length = hp.aux.length ∧
    (hp.descend i).len = hp.len := by
  rw [Heap.descend]
  exact descendAux_lengths _ hp i

/-- What a successful extract_min guarantees: the returned payload was a
tail payload, the remaining tail payloads all were tail payloads, and the
length bookkeeping is preserved. -/
theorem extract_min_spec {hp : Heap} {k v : Nat} {hp' : Heap}
    (hkeq : hp.keys.length = hp.aux.length) (hlen : hp.keys.length = hp.len + 1)
    (he : hp.extract_min = some ((k, v), hp')) :
    v ∈ hp.aux.drop 1 ∧ (∀ x ∈ hp'.aux.drop 1, x ∈ hp.aux.drop 1) ∧
    hp'.keys.length = hp'.aux.length ∧ hp'.keys.length = hp'.len + 1 := by
  simp only [Heap.extract_min] at he
  by_cases h0 : hp.len = 0
  · rw [if_pos h0] at he; simp at he
  · rw [if_neg h0] at he
    rw [Option.some_inj] at he
    have hv : hp.aux.getD 1 0 = v := congrArg (fun z => z.1.2) he
    have hh : ({ Heap.descend ⟨swapRemove hp.keys 1 0, swapRemove hp.aux 1 0, hp.len⟩ 1
        with len := (Heap.descend ⟨swapRemove hp.keys 1 0, swapRemove hp.aux 1 0, hp.len⟩
          1).len - 1 } : Heap) = hp' := congrArg Prod.snd he
    have hl2 : 2 ≤ hp.aux.length := by omega
    obtain ⟨d1, d2, d3⟩ := descend_lengths
      ⟨swapRemove hp.keys 1 0, swapRemove hp.aux 1 0, hp.len⟩ 1
    refine ⟨?_, ?_, ?_, ?_⟩
    · rw [mem_drop_iff]
      exact ⟨1, by omega, by omega, hv⟩
    · intro x hx
      rw [← hh] at hx
      have hx2 := descendAux_mem _ _ 1 (by omega)
        (by simp [swapRemove_length]; omega) x hx
      exact swapRemove_mem hl2 x hx2
    · rw [← hh]
      show (Heap.descend _ 1).keys.length = (Heap.descend _ 1).aux.length
      rw [d1, d2]
      show (swapRemove hp.keys 1 0).length = (swapRemove hp.aux 1 0).length
      simp [swapRemove_length, hkeq]
    · rw [← hh]
      show (Heap.descend _ 1).keys.length = ((Heap.descend _ 1).len - 1) + 1
      rw [d1, d3]
      show (swapRemove hp.keys 1 0).length = hp.len - 1 + 1
      simp [swapRemove_length]
      omega

/-! #### C8: grid adjacency of the four neighbor indices of an interior cell -/

/-- diff of equal arguments. -/
theorem diff_self (a : Nat) : diff a a = 0 := by
  rw [diff, if_neg (lt_irrefl a), Nat.sub_self]

/-- diff is symmetric. -/
theorem diff_comm (a b : Nat) : diff a b = diff b a := by
  rw [diff, diff]
  rcases Nat.lt_trichotomy a b with h | h | h
  · rw [if_pos h, if_neg (by omega)]
  · rw [h]
  · rw [if_neg (by omega), if_pos h]

/-- manhattan of a cell to itself. -/
theorem manhattan_self (width a : Nat) : manhattan width a a = 0 := by
  rw [manhattan, diff_self, diff_self]

/-- manhattan is symmetric. -/
theorem manhattan_comm (width a b : Nat) : manhattan width a b = manhattan width b a := by
  rw [manhattan, manhattan, diff_comm, diff_comm (a % width)]

/-- The right neighbor of a cell not in the last column is at manhattan
distance 1. -/
theorem manhattan_add_one {width cur : Nat} (h : cur % width + 1 < width) :
    manhattan width cur (cur + 1) = 1 := by
  have hw : 0 < width := by omega
  obtain ⟨q, r, rfl, hrw⟩ : ∃ q r, cur = width * q + r ∧ r < width :=
    ⟨cur / width, cur % width, (Nat.div_add_mod cur width).symm, Nat.mod_lt cur hw⟩
  rw [Nat.mul_add_mod, Nat.mod_eq_of_lt hrw] at h
  have e1 : (width * q + r) / width = q := by
    rw [Nat.mul_add_div hw, Nat.div_eq_of_lt hrw, Nat.add_zero]
  have e2 : (width * q + (r + 1)) / width = q := by
    rw [Nat.mul_add_div hw, Nat.div_eq_of_lt h, Nat.add_zero]
  have e3 : (width * q + r) % width = r := by
    rw [Nat.mul_add_mod, Nat.mod_eq_of_lt hrw]
  have e4 : (width * q + (r + 1)) % width = r + 1 := by
    rw [Nat.mul_add_mod, Nat.mod_eq_of_lt h]
  rw [manhattan, Nat.add_assoc, e1, e2, e3, e4, diff_self, diff, if_pos (by omega)]
  omega

/-- The left neighbor of a cell not in the first column is at manhattan
distance 1. -/
theorem manhattan_sub_one {width cur : Nat} (hw : 0 < width) (h : cur % width ≠ 0) :
    manhattan width cur (cur - 1) = 1 := by
  obtain ⟨q, r, rfl, hrw⟩ : ∃ q r, cur = width * q + r ∧ r < width :=
    ⟨cur / width, cur % width, (Nat.div_add_mod cur width).symm, Nat.mod_lt cur hw⟩
  rw [Nat.mul_add_mod, Nat.mod_eq_of_lt hrw] at h
  have hr1 : 1 ≤ r := by omega
  have hsub : width * q + r - 1 = width * q + (r - 1) := Nat.add_sub_assoc hr1 _
  have hrw2 : r - 1 < width := by omega
  have e1 : (width * q + r) / width = q := by
    rw [Nat.mul_add_div hw, Nat.div_eq_of_lt hrw, Nat.add_zero]
  have e2 : (width * q + (r - 1)) / width = q := by
    rw [Nat.mul_add_div hw, Nat.div_eq_of_lt hrw2, Nat.add_zero]
  have e3 : (width * q + r) % width = r := by
    rw [Nat.mul_add_mod, Nat.mod_eq_of_lt hrw]
  have e4 : (width * q + (r - 1)) % width = r - 1 := by
    rw [Nat.mul_add_mod, Nat.mod_eq_of_lt hrw2]
  rw [manhattan, hsub, e1, e2, e3, e4, diff_self, diff, if_neg (by omega)]
  omega

/-- The neighbor one row down is at manhattan distance 1. -/
theorem manhattan_add_width {width : Nat} (cur : Nat) (hw : 0 < width) :
    manhattan width cur (cur + width) = 1 := by
  rw [manhattan, Nat.add_div_right cur hw, Nat.add_mod_right, diff_self,
    diff, if_pos (by omega)]
  omega

/-- The neighbor one row up of a cell not in the first row is at manhattan
distance 1. -/
theorem manhattan_sub_width {width cur : Nat} (hw : 0 < width) (h : width ≤ cur) :
    manhattan width cur (cur - width) = 1 := by
  have e : manhattan width (cur - width) (cur - width + width) = 1 :=
    manhattan_add_width _ hw
  rw [Nat.sub_add_cancel h] at e
  rw [manhattan_comm]
  exact e

/-! #### C8: border-Blocker grids -/

/-- The grids a_star runs on in this program: every cell of the outer ring
(first and last column, first and last row) is a Blocker.  The first row is
i < width and the last row is length ≤ i + width. -/
def BorderBlocker (width : Nat) (tiles : List Tile) : Prop :=
  ∀ i, i < tiles.length →
    (i % width = 0 ∨ i % width = width - 1 ∨ i < width ∨ tiles.length ≤ i + width) →
    tiles.getD i Tile.Blocker = Tile.Blocker

instance (width : Nat) (tiles : List Tile) : Decidable (BorderBlocker width tiles) := by
  unfold BorderBlocker
  infer_instance

/-- A quick arithmetic consequence: below width minus one. -/
theorem lt_width_of_ne {r w : Nat} (h1 : r < w) (h2 : r ≠ w - 1) : r + 1 < w := by omega

/-- A non-Blocker cell of a border-Blocker grid is interior: not in the
first or last column and not in the first row. -/
theorem nonblocker_interior {width : Nat} {tiles : List Tile} {c : Nat}
    (hb : BorderBlocker width tiles) (hw : 0 < width) (hc : c < tiles.length)
    (hnb : tiles.getD c Tile.Blocker ≠ Tile.Blocker) :
    c % width ≠ 0 ∧ c % width + 1 < width ∧ width ≤ c := by
  have h1 : c % width ≠ 0 := fun h => hnb (hb c hc (Or.inl h))
  have h2 : c % width ≠ width - 1 := fun h => hnb (hb c hc (Or.inr (Or.inl h)))
  have h3 : ¬ c < width := fun h => hnb (hb c hc (Or.inr (Or.inr (Or.inl h))))
  exact ⟨h1, lt_width_of_ne (Nat.mod_lt c hw) h2, by omega⟩

/-! #### C8: the a_star loop invariant -/

/-- The invariant of the a_star main loop.  The arrays keep their lengths;
the heap bookkeeping stays consistent; every cell's parent pointer is
either itself or an adjacent in-bounds cell of strictly smaller g-score;
a self-parented cell is the start or still has the infinite g-score; all
g-scores stay at most infGScore; and every payload in the heap (the tail
of aux, since slot 0 is never used) is an in-bounds non-Blocker cell that
is the start or has been given a proper parent. -/
def AStarInv (width start : Nat) (tiles : List Tile)
    (open_set : Heap) (g parent : List Nat) : Prop :=
  g.length = tiles.length ∧
  parent.length = tiles.length ∧
  open_set.keys.length = open_set.aux.length ∧
  open_set.keys.length = open_set.len + 1 ∧
  (∀ c, c < tiles.length →
    parent.getD c 0 = c ∨
      (parent.getD c 0 < tiles.length ∧
       manhattan width c (parent.getD c 0) = 1 ∧
       g.getD (parent.getD c 0) 0 < g.getD c 0)) ∧
  (∀ c, c < tiles.length → parent.getD c 0 = c → c = start ∨ g.getD c 0 = infGScore) ∧
  (∀ c, c < tiles.length → g.getD c 0 ≤ infGScore) ∧
  (∀ v ∈ open_set.aux.drop 1,
    v < tiles.length ∧ tiles.getD v Tile.Blocker ≠ Tile.Blocker ∧
    (v = start ∨ parent.getD v 0 ≠ v))

/-- Relaxing one neighbor of an extracted in-bounds cell preserves the
invariant, provided every cost is at least 1 and the neighbor, when it is
not skipped as a Blocker, is grid-adjacent to the current cell. -/
theorem relaxNeighbor_inv (cc sc stc mc end_ width start current neighbor : Nat)
    (tiles : List Tile) (st : Heap × List Nat × List Nat)
    (hcc : 1 ≤ cc) (hsc : 1 ≤ sc) (hstc : 1 ≤ stc)
    (hcur : current < tiles.length)
    (hadj : tiles.getD neighbor Tile.Blocker ≠ Tile.Blocker →
      manhattan width neighbor current = 1)
    (hinv : AStarInv width start tiles st.1 st.2.1 st.2.2) :
    AStarInv width start tiles
      (relaxNeighbor cc sc stc mc end_ width tiles current st neighbor).1
      (relaxNeighbor cc sc stc mc end_ width tiles current st neighbor).2.1
      (relaxNeighbor cc sc stc mc end_ width tiles current st neighbor).2.2 := by
  obtain ⟨os, g, parent⟩ := st
  dsimp only at hinv ⊢
  obtain ⟨hg, hp, hk1, hk2, hP1, hP2, hP5, hHV⟩ := hinv
  simp only [relaxNeighbor]
  dsimp only
  by_cases h1 : tiles.getD neighbor Tile.Blocker = Tile.Blocker ∨
      tiles.getD neighbor Tile.Blocker = Tile.Room
  · rw [if_pos h1]; exact ⟨hg, hp, hk1, hk2, hP1, hP2, hP5, hHV⟩
  · rw [if_neg h1]
    by_cases h2 : tiles.getD current Tile.Blocker = Tile.CorridorNeighbor ∧
        tiles.getD neighbor Tile.Blocker = Tile.CorridorNeighbor
    · rw [if_pos h2]; exact ⟨hg, hp, hk1, hk2, hP1, hP2, hP5, hHV⟩
    · rw [if_neg h2]
      by_cases h3 : make_square width neighbor current (parent.getD current 0)
          (parent.getD (parent.getD current 0) 0) = true
      · rw [if_pos h3]; exact ⟨hg, hp, hk1, hk2, hP1, hP2, hP5, hHV⟩
      · rw [if_neg h3]
        by_cases h4 : g.getD current 0 +
            (if tiles.getD neighbor Tile.Blocker = Tile.Corridor then cc
             else if diff current (parent.getD current 0) = diff neighbor current then sc
             else stc) < g.getD neighbor 0
        · rw [if_pos h4]
          have ht : tiles.getD neighbor Tile.Blocker ≠ Tile.Blocker :=
            fun hh => h1 (Or.inl hh)
          have hnb : neighbor < tiles.length := by
            by_contra hge
            push_neg at hge
            exact ht (List.getD_eq_default _ _ hge)
          have hman : manhattan width neighbor current = 1 := hadj ht
          have hne : neighbor ≠ current := by
            intro heq
            rw [heq, manhattan_self] at hman
            exact absurd hman (by omega)
          have hcost : 1 ≤ (if tiles.getD neighbor Tile.Blocker = Tile.Corridor then cc
              else if diff current (parent.getD current 0) = diff neighbor current then sc
              else stc) := by
            split
            · exact hcc
            · split
              · exact hsc
              · exact hstc
          refine ⟨?_, ?_, ?_, ?_, ?_, ?_, ?_, ?_⟩
          · rw [List.length_set]; exact hg
          · rw [List.length_set]; exact hp
          · obtain ⟨i1, i2, _⟩ := insert_lengths os
              (g.getD current 0 +
                (if tiles.getD neighbor Tile.Blocker = Tile.Corridor then cc
                 else if diff current (parent.getD current 0) = diff neighbor current
                 then sc else stc) + manhattan width neighbor end_ * mc) neighbor
            rw [i1, i2, hk1]
          · obtain ⟨i1, _, i3⟩ := insert_lengths os
              (g.getD current 0 +
                (if tiles.getD neighbor Tile.Blocker = Tile.Corridor then cc
                 else if diff current (parent.getD current 0) = diff neighbor current
                 then sc else stc) + manhattan width neighbor end_ * mc) neighbor
            rw [i1, i3, hk2]
          · intro c hc2
            by_cases hcn : c = neighbor
            · subst hcn
              right
              rw [getD_set_self _ _ (by rw [hp]; exact hnb),
                getD_set_ne _ _ hne, getD_set_self _ _ (by rw [hg]; exact hnb)]
              exact ⟨hcur, hman, by omega⟩
            · rw [getD_set_ne _ _ (Ne.symm hcn), getD_set_ne _ _ (Ne.symm hcn)]
              rcases hP1 c hc2 with hroot | ⟨hb1, hb2, hb3⟩
              · exact Or.inl hroot
              · right
                refine ⟨hb1, hb2, ?_⟩
                by_cases hpn : parent.getD c 0 = neighbor
                · rw [hpn, getD_set_self _ _ (by rw [hg]; exact hnb)]
                  rw [hpn] at hb3
                  omega
                · rw [getD_set_ne _ _ (Ne.symm hpn)]
                  exact hb3
          · intro c hc2 hroot
            by_cases hcn : c = neighbor
            · subst hcn
              rw [getD_set_self _ _ (by rw [hp]; exact hnb)] at hroot
              exact absurd hroot.symm hne
            · rw [getD_set_ne _ _ (Ne.symm hcn)] at hroot
              rcases hP2 c hc2 hroot with h | h
              · exact Or.inl h
              · right
                rw [getD_set_ne _ _ (Ne.symm hcn)]
                exact h
          · intro c hc2
            by_cases hcn : c = neighbor
            · subst hcn
              rw [getD_set_self _ _ (by rw [hg]; exact hnb)]
              have := hP5 c hnb
              omega
            · rw [getD_set_ne _ _ (Ne.symm hcn)]
              exact hP5 c hc2
          · intro v hv
            rcases insert_mem os _ _ hk1 (by omega) v hv with hveq | hvold
            · subst hveq
              refine ⟨hnb, ht, Or.inr ?_⟩
              rw [getD_set_self _ _ (by rw [hp]; exact hnb)]
              exact Ne.symm hne
            · obtain ⟨hv1, hv2, hv3⟩ := hHV v hvold
              refine ⟨hv1, hv2, ?_⟩
              rcases hv3 with h | h
              · exact Or.inl h
              · right
                by_cases hvn : v = neighbor
                · subst hvn
                  rw [getD_set_self _ _ (by rw [hp]; exact hv1)]
                  exact Ne.symm hne
                · rw [getD_set_ne _ _ (Ne.symm hvn)]
                  exact h
        · rw [if_neg h4]; exact ⟨hg, hp, hk1, hk2, hP1, hP2, hP5, hHV⟩

/-- Folding the relaxation over any list of conditionally adjacent
neighbors preserves the invariant. -/
theorem foldRelax_inv (cc sc stc mc end_ width start current : Nat) (tiles : List Tile)
    (hcc : 1 ≤ cc) (hsc : 1 ≤ sc) (hstc : 1 ≤ stc)
    (hcur : current < tiles.length) :
    ∀ (nbrs : List Nat) (st : Heap × List Nat × List Nat),
      (∀ nb ∈ nbrs, tiles.getD nb Tile.Blocker ≠ Tile.Blocker →
        manhattan width nb current = 1) →
      AStarInv width start tiles st.1 st.2.1 st.2.2 →
      AStarInv width start tiles
        (nbrs.foldl (relaxNeighbor cc sc stc mc end_ width tiles current) st).1
        (nbrs.foldl (relaxNeighbor cc sc stc mc end_ width tiles current) st).2.1
        (nbrs.foldl (relaxNeighbor cc sc stc mc end_ width tiles current) st).2.2 := by
  intro nbrs
  induction nbrs with
  | nil => intro st _ hinv; exact hinv
  | cons nb rest ih =>
    intro st hadj hinv
    rw [List.foldl_cons]
    exact ih _ (fun x hx hbx => hadj x (List.mem_cons_of_mem _ hx) hbx)
      (relaxNeighbor_inv cc sc stc mc end_ width start current nb tiles st
        hcc hsc hstc hcur (hadj nb (List.mem_cons_self _ _)) hinv)

/-- rebuildPath always produces at least the current cell. -/
theorem rebuildPath_ne_nil : ∀ (fuel : Nat) (parent : List Nat) (c : Nat),
    rebuildPath fuel parent c ≠ [] := by
  intro fuel parent c
  cases fuel with
  | zero => simp [rebuildPath]
  | succ f => rw [rebuildPath]; split <;> simp

/-- Walking the parent pointers from a cell of finite g-score ends at the
start and every step is grid-adjacent, as long as the fuel exceeds the
cell's g-score: the g-score strictly decreases along the chain. -/
theorem rebuildPath_spec (width start n : Nat) (g parent : List Nat)
    (hplen : parent.length = n)
    (hP1 : ∀ c, c < n → parent.getD c 0 = c ∨
      (parent.getD c 0 < n ∧ manhattan width c (parent.getD c 0) = 1 ∧
       g.getD (parent.getD c 0) 0 < g.getD c 0))
    (hP2 : ∀ c, c < n → parent.getD c 0 = c → c = start ∨ g.getD c 0 = infGScore)
    (hP5 : ∀ c, c < n → g.getD c 0 ≤ infGScore) :
    ∀ (fuel current : Nat), current < n → g.getD current 0 < fuel →
      (current = start ∨ parent.getD current 0 ≠ current) →
      (rebuildPath fuel parent current).head? = some current ∧
      (rebuildPath fuel parent current).getLast? = some start ∧
      List.Chain' (fun a b => manhattan width a b = 1) (rebuildPath fuel parent current) := by
  intro fuel
  induction fuel with
  | zero => intro current _ hf _; exact absurd hf (Nat.not_lt_zero _)
  | succ f ih =>
    intro current hc hf hsr
    rw [rebuildPath]
    have hdef : parent.getD current current = parent.getD current 0 :=
      getD_congr _ _ (by rw [hplen]; exact hc)
    by_cases hroot : parent.getD current 0 = current
    · rw [if_pos (by rw [hdef]; exact hroot)]
      have hstart : current = start := by
        rcases hsr with h | h
        · exact h
        · exact absurd hroot h
      exact ⟨rfl, by simp [hstart], by simp⟩
    · rw [if_neg (by rw [hdef]; exact hroot)]
      rw [hdef]
      rcases hP1 current hc with h | ⟨hb1, hb2, hb3⟩
      · exact absurd h hroot
      · have hf' : g.getD (parent.getD current 0) 0 < f := by omega
        have hsr' : parent.getD current 0 = start ∨
            parent.getD (parent.getD current 0) 0 ≠ parent.getD current 0 := by
          by_cases hr2 : parent.getD (parent.getD current 0) 0 = parent.getD current 0
          · rcases hP2 _ hb1 hr2 with h | h
            · exact Or.inl h
            · have h5 := hP5 current hc
              omega
          · exact Or.inr hr2
        obtain ⟨ih1, ih2, ih3⟩ := ih (parent.getD current 0) hb1 hf' hsr'
        have hnn := rebuildPath_ne_nil f parent (parent.getD current 0)
        refine ⟨rfl, ?_, ?_⟩
        · rcases hrest : rebuildPath f parent (parent.getD current 0) with _ | ⟨r, t⟩
          · exact absurd hrest hnn
          · rw [hrest] at ih2
            rw [List.getLast?_cons_cons]
            exact ih2
        · rw [List.chain'_cons']
          refine ⟨?_, ih3⟩
          intro y hy
          rw [ih1] at hy
          simp only [Option.mem_def, Option.some_inj] at hy
          rw [← hy]
          exact hb2

/-- The a_star loop, started in any state satisfying the invariant on a
border-Blocker grid with positive costs, can only return the empty path or
a path that starts at the end cell, finishes at the start cell and moves by
grid-adjacent steps. -/
theorem aStarLoop_spec (cc sc stc mc end_ width start : Nat) (tiles : List Tile)
    (hcc : 1 ≤ cc) (hsc : 1 ≤ sc) (hstc : 1 ≤ stc) (hw : 0 < width)
    (hb : BorderBlocker width tiles) :
    ∀ (fuel : Nat) (open_set : Heap) (g parent : List Nat),
      AStarInv width start tiles open_set g parent →
      aStarLoop cc sc stc mc end_ width tiles fuel open_set g parent ≠ [] →
      (aStarLoop cc sc stc mc end_ width tiles fuel open_set g parent).head? =
        some end_ ∧
      (aStarLoop cc sc stc mc end_ width tiles fuel open_set g parent).getLast? =
        some start ∧
      List.Chain' (fun a b => manhattan width a b = 1)
        (aStarLoop cc sc stc mc end_ width tiles fuel open_set g parent) := by
  intro fuel
  induction fuel with
  | zero =>
    intro os g parent _ hne
    simp only [aStarLoop] at hne
    exact absurd rfl hne
  | succ f ih =>
    intro os g parent hinv hne
    obtain ⟨hg, hp, hk1, hk2, hP1, hP2, hP5, hHV⟩ := hinv
    rcases hext : os.extract_min with _ | ⟨⟨fc, cur⟩, os2⟩
    · simp only [aStarLoop, hext] at hne ⊢
      exact absurd rfl hne
    · obtain ⟨hcurmem, hsub, hk1n, hk2n⟩ := extract_min_spec hk1 hk2 hext
      obtain ⟨hcn, hcnb, hcsr⟩ := hHV cur hcurmem
      simp only [aStarLoop, hext] at hne ⊢
      by_cases hstale : g.getD cur 0 < fc - manhattan width cur end_ * mc
      · rw [if_pos hstale] at hne ⊢
        exact ih os2 g parent
          ⟨hg, hp, hk1n, hk2n, hP1, hP2, hP5, fun v hv => hHV v (hsub v hv)⟩ hne
      · rw [if_neg hstale] at hne ⊢
        by_cases hend : cur = end_
        · rw [if_pos hend] at hne ⊢
          rw [← hend]
          exact rebuildPath_spec width start tiles.length g parent hp hP1 hP2 hP5
            (g.getD cur 0 + 1) cur hcn (by omega) hcsr
        · rw [if_neg hend] at hne ⊢
          obtain ⟨m1, m2, m3⟩ := nonblocker_interior hb hw hcn hcnb
          have hadj : ∀ nb ∈ [cur + width, cur - width, cur + 1, cur - 1],
              tiles.getD nb Tile.Blocker ≠ Tile.Blocker →
              manhattan width nb cur = 1 := by
            intro nb hmem _
            simp only [List.mem_cons, List.not_mem_nil, or_false] at hmem
            rcases hmem with h | h | h | h
            · rw [h, manhattan_comm]; exact manhattan_add_width cur hw
            · rw [h, manhattan_comm]; exact manhattan_sub_width hw m3
            · rw [h, manhattan_comm]; exact manhattan_add_one m2
            · rw [h, manhattan_comm]; exact manhattan_sub_one hw m1
          have hfold := foldRelax_inv cc sc stc mc end_ width start cur tiles
            hcc hsc hstc hcn [cur + width, cur - width, cur + 1, cur - 1]
            (os2, g, parent) hadj
            ⟨hg, hp, hk1n, hk2n, hP1, hP2, hP5, fun v hv => hHV v (hsub v hv)⟩
          exact ih _ _ _ hfold hne

/-- Inserting into a fresh heap yields the two-slot heap directly. -/
theorem insert_with_capacity (cap k v : Nat) :
    (Heap.with_capacity cap).insert k v = ⟨[0, k], [0, v], 1⟩ := by
  simp [Heap.with_capacity, Heap.insert, Heap.ascend, ascendAux]

/-- C8 (amended found-path guarantees).  On a grid whose outer ring is all
Blocker, with positive width, an in-bounds non-Blocker start cell and the
three corridor costs at least 1, a non-empty result of a_star begins at the
end cell, finishes at the start cell, and every consecutive pair of cells
is 4-adjacent (manhattan distance exactly 1).  Together with the
counterexample above, this is what the a_star result actually guarantees:
an empty result does not imply that no rules-respecting walk exists.
The tile list is an input of the pure function a_star and is returned
untouched by construction (in Rust it is an immutable borrow). -/
theorem a_star_found_path (configuration : Configuration) (start end_ width : Nat)
    (tiles : List Tile)
    (hcc : 1 ≤ configuration.corridor_cost)
    (hsc : 1 ≤ configuration.straight_cost)
    (hstc : 1 ≤ configuration.standard_cost)
    (hw : 0 < width) (hb : BorderBlocker width tiles)
    (hs : start < tiles.length)
    (hsnb : tiles.getD start Tile.Blocker ≠ Tile.Blocker)
    (hne : a_star configuration start end_ width tiles ≠ []) :
    (a_star configuration start end_ width tiles).head? = some end_ ∧
    (a_star configuration start end_ width tiles).getLast? = some start ∧
    List.Chain' (fun a b => manhattan width a b = 1)
      (a_star configuration start end_ width tiles) := by
  have hinv : AStarInv width start tiles
      ((Heap.with_capacity (tiles.length / 4)).insert
        (manhattan width start end_ *
          Nat.min (Nat.min configuration.corridor_cost configuration.straight_cost)
            configuration.standard_cost) start)
      ((List.replicate tiles.length infGScore).set start 0)
      (List.range tiles.length) := by
    rw [insert_with_capacity]
    refine ⟨?_, ?_, ?_, ?_, ?_, ?_, ?_, ?_⟩
    · simp
    · simp
    · rfl
    · rfl
    · intro c hc
      left
      rw [List.getD_eq_getElem _ _ (by simpa using hc), List.getElem_range]
    · intro c hc _
      by_cases hcs : c = start
      · exact Or.inl hcs
      · right
        rw [getD_set_ne _ _ (fun h => hcs h.symm),
          List.getD_eq_getElem _ _ (by simpa using hc), List.getElem_replicate]
    · intro c hc
      by_cases hcs : c = start
      · rw [hcs, getD_set_self _ _ (by simpa using hs)]
        exact Nat.zero_le _
      · rw [getD_set_ne _ _ (fun h => hcs h.symm),
          List.getD_eq_getElem _ _ (by simpa using hc), List.getElem_replicate]
    · intro v hv
      have hv2 : v = start := by simpa using hv
      rw [hv2]
      exact ⟨hs, hsnb, Or.inl rfl⟩
  simp only [a_star]
  exact aStarLoop_spec configuration.corridor_cost configuration.straight_cost
    configuration.standard_cost
    (Nat.min (Nat.min configuration.corridor_cost configuration.straight_cost)
      configuration.standard_cost)
    end_ width start tiles hcc hsc hstc hw hb _ _ _ _ hinv
    (by simp only [a_star] at hne; exact hne)

/-- The 5x4 all-Wall-interior grid of the C8 witness. -/
def c8wTiles : List Tile :=
  [.Blocker, .Blocker, .Blocker, .Blocker, .Blocker,
   .Blocker, .Wall, .Wall, .Wall, .Blocker,
   .Blocker, .Wall, .Wall, .Wall, .Blocker,
   .Blocker, .Blocker, .Blocker, .Blocker, .Blocker]

/-- Witness for the amended C8 theorem: on c8wTiles with the default
configuration, a_star from cell 6 to cell 13 finds the path [13, 8, 7, 6],
which begins at the end cell, finishes at the start cell, and moves by
4-adjacent steps. -/
theorem a_star_found_path_witness :
    (a_star defaultConfiguration 6 13 5 c8wTiles).head? = some 13 ∧
    (a_star defaultConfiguration 6 13 5 c8wTiles).getLast? = some 6 ∧
    List.Chain' (fun a b => manhattan 5 a b = 1)
      (a_star defaultConfiguration 6 13 5 c8wTiles) :=
  a_star_found_path defaultConfiguration 6 13 5 c8wTiles (by decide) (by decide)
    (by decide) (by decide) (by decide) (by decide) (by decide) (by decide)

end Dungen
